import Mathlib

/-!
Verification of the batch image-to-AVIF converter (Deno/TypeScript).

This file shallowly embeds the core of the repository:
* `sanitizePath` (src/utils/helpers.ts) as a pure function on strings,
* the conversion executor `convertFile` (src/core/converter.ts),
* the folder worker `processFilesInFolder` / `retryFailedFiles`
  (src/core/folder-processor.ts),
* the worker-pool driver `processFilesByFolder` (the parallel variant),
* the directory renamer `renameSpecialCharFolders` (src/core/directory-handler.ts),
restricted to the behaviour visible at the boundaries the claims talk about.

Filesystem and subprocess effects are modelled by explicit state passing: an
`FsState` records which output files exist and which encoder invocations were
made, an `Env` oracle decides the outcome of each external-encoder invocation
(the encoder is an external program whose behaviour the repository does not
control), and the error log is a list of entries mirroring `writeErrorLog`.
-/

namespace Avif

/-! ## Path sanitizer (src/utils/helpers.ts, `sanitizePath`)

The source is
`path.replace(/[<>:"\/\\|?*()[\]\x7b\x7d]/g, " ").replace(/\s+/g, " ").trim()`.
We model JS strings as Lean `String` and work on the underlying `List Char`.
The JS `\s` class is modelled by the set of whitespace code points below
(ASCII whitespace plus the Unicode space separators JS includes). -/

/-- The forbidden character class of `sanitizePath`:
`< > : " / \ | ? * ( ) [ ] \x7b \x7d`. -/
def forbiddenChars : List Char :=
  ['<', '>', ':', '"', '/', '\\', '|', '?', '*', '(', ')', '[', ']', '\x7b', '\x7d']

/-- True when `c` is in the forbidden set replaced by a space. -/
def isForbidden (c : Char) : Bool := forbiddenChars.contains c

/-- Whitespace as matched by the JS `\s` class (and removed by `trim`). -/
def isWS (c : Char) : Bool :=
  c == ' ' || c == '\t' || c == '\n' || c == '\r' || c == '\x0b' || c == '\x0c' ||
  c == ' ' || c == ' ' || c == ' ' || c == ' ' || c == ' ' ||
  c == ' ' || c == ' ' || c == ' ' || c == ' ' || c == ' ' ||
  c == ' ' || c == ' ' || c == ' ' || c == ' ' || c == ' ' ||
  c == ' ' || c == ' ' || c == '　' || c == '﻿'

/-- First `replace`: every forbidden character becomes a single space. -/
def replaceForbidden (l : List Char) : List Char :=
  l.map (fun c => if isForbidden c then ' ' else c)

/-- Second `replace`: each maximal run of whitespace becomes one space.
The flag records whether we are inside a whitespace run already emitted. -/
def collapseWS : Bool → List Char → List Char
  | _, [] => []
  | inRun, c :: rest =>
    if isWS c then
      if inRun then collapseWS true rest
      else ' ' :: collapseWS true rest
    else c :: collapseWS false rest

/-- Drop trailing whitespace (the right half of `trim`). -/
def trimRight : List Char → List Char
  | [] => []
  | c :: rest =>
    match trimRight rest with
    | [] => if isWS c then [] else [c]
    | r => c :: r

/-- The `trim` step: drop leading then trailing whitespace. -/
def trimWS (l : List Char) : List Char := trimRight (l.dropWhile isWS)

/-- The whole sanitizer on character lists. -/
def sanitizeList (l : List Char) : List Char :=
  trimWS (collapseWS false (replaceForbidden l))

/-- The function `sanitizePath` from src/utils/helpers.ts. -/
def sanitizePath (s : String) : String := String.mk (sanitizeList s.data)

/-! ## Data model (src/interfaces/types.ts) -/

/-- One conversion task, created at discovery (src/core/controller.ts). -/
structure ConversionTask where
  inputPath : String
  outputPath : String
  relativePath : String
  originalIndex : Nat
deriving DecidableEq

/-- Per-folder task list (`FolderConversionTask` in types.ts). -/
structure FolderConversionTask where
  folderPath : String
  files : List ConversionTask
  errorFiles : List ConversionTask
  completed : Bool
deriving DecidableEq

/-- One line of the conversion-error log (`FileError` in types.ts). The
timestamp is irrelevant to every claim and is modelled as `""`. -/
structure FileError where
  timestamp : String
  filePath : String
  error : String
deriving DecidableEq

/-! ## Constants (src/utils/constants.ts) -/

def MAX_RETRY_COUNT : Nat := 3

def SKIP_EXISTING_FILES : Bool := true

/-! ## Path helpers (deno std path, as used by the source) -/

/-- Split a path on `/` and `\`. -/
def pathParts (s : String) : List String :=
  s.split (fun c => c == '/' || c == '\\')

/-- The `basename` helper of the path library. -/
def baseName (s : String) : String := (pathParts s).getLastD s

/-- The `dirname` helper of the path library, used only as a grouping key. -/
def dirName (s : String) : String :=
  String.intercalate "/" (pathParts s).dropLast

/-- JS `padStart(3, '0')`. -/
def padStart3 (s : String) : String :=
  String.mk (List.replicate (3 - s.length) '0' ++ s.data)

/-- The sequential output name
`(task.originalIndex + 1).toString().padStart(3, '0') + ".avif"`
(src/core/converter.ts line 137 and folder-processor.ts line 56). -/
def targetFileName (t : ConversionTask) : String :=
  padStart3 (toString (t.originalIndex + 1)) ++ ".avif"

/-- The (output directory, output file name) pair a task writes to. -/
def expectedPair (t : ConversionTask) : String × String :=
  (t.outputPath, targetFileName t)

/-! ## The conversion executor (src/core/converter.ts)

The external encoder is a subprocess the repository does not control, so each
invocation's behaviour is an oracle: for a given source file and invocation
number it either fails before the subprocess (staging copy error), exits
non-zero, exits zero without producing the staged output, produces the staged
output but the final move fails, or fully succeeds. The filesystem is modelled
by the set of (directory, file name) pairs present in the target tree plus a
trace of encoder invocations; the staging directory is private to one
`convertFile` call and never aliases the output directory, so only the final
move mutates `outputFiles`. The move is `Deno` std `move` (rename), modelled
as atomic with overwrite. -/

/-- Outcome of one attempt to convert a file, as decided by the environment. -/
inductive AttemptOutcome
  | copyFail
  | subprocessFail
  | noOutput
  | moveFail
  | ok
deriving DecidableEq

/-- The distinct failure causes `convertFile` can raise. The message texts are
the static prefixes of the thrown `Error` messages in converter.ts; the dynamic
parts (paths, stderr text) follow the prefix and never affect any claim. -/
inductive ConvError
  | tempCopyFailed
  | subprocessFailed
  | missingOutput
  | moveFailed
deriving DecidableEq

def convErrorMessage : ConvError → String
  | .tempCopyFailed => "Failed to create temp copy of file: "
  | .subprocessFailed => "Conversion failed: "
  | .missingOutput => "Conversion did not produce expected output file: "
  | .moveFailed => "Failed to move temporary file: "

/-- The environment: the encoder oracle (keyed by source path and invocation
number) and the `localeCompare(undefined, numeric, base)` comparator used to
sort file names, which is locale/ICU-dependent library behaviour. -/
structure Env where
  encoder : String → Nat → AttemptOutcome
  fileLe : String → String → Bool

/-- Target-tree state: which output files exist, and the encoder invocations
performed so far. -/
structure FsState where
  outputFiles : List (String × String)
  invocations : List (String × Nat)
deriving DecidableEq

/-- Place a file under (dir, name), overwriting (the name set gains the pair). -/
def FsState.addOutput (fs : FsState) (dir name : String) : FsState :=
  if (dir, name) ∈ fs.outputFiles then fs
  else { fs with outputFiles := fs.outputFiles ++ [(dir, name)] }

def FsState.recordInvoke (fs : FsState) (p : String) (k : Nat) : FsState :=
  { fs with invocations := fs.invocations ++ [(p, k)] }

/-- The executor `convertFile` (converter.ts lines 31-150): stage a copy, run the encoder,
verify the staged output exists, then (only then, as the last step) move it to
the final sequential name. Every failure path raises and leaves the output
directory untouched. -/
def convertFile (env : Env) (t : ConversionTask) (k : Nat) (fs : FsState) :
    Except ConvError Unit × FsState :=
  match env.encoder t.inputPath k with
  | .copyFail => (.error .tempCopyFailed, fs)
  | .subprocessFail => (.error .subprocessFailed, fs.recordInvoke t.inputPath k)
  | .noOutput => (.error .missingOutput, fs.recordInvoke t.inputPath k)
  | .moveFail => (.error .moveFailed, fs.recordInvoke t.inputPath k)
  | .ok => (.ok (), (fs.recordInvoke t.inputPath k).addOutput t.outputPath (targetFileName t))

/-! ## Folder worker (src/core/folder-processor.ts) -/

/-- Mutable run state threaded through processing: target tree, the shared
`ProgressInfo.current` counter, and the error log (`error.txt`). -/
structure RunState where
  fs : FsState
  progress : Nat
  log : List FileError
deriving DecidableEq

/-- The increment `globalProgress.current++`. -/
def RunState.bump (st : RunState) : RunState :=
  { st with progress := st.progress + 1 }

/-- The logger `writeErrorLog` (helpers.ts): append one entry. -/
def mkErrorEntry (path msg : String) : FileError := ⟨"", path, msg⟩

/-- The final-failure log message of retryFailedFiles (folder-processor.ts
line 132): `Failed after ${MAX_RETRY_COUNT} retry attempts: ...`. -/
def finalFailureMessage (e : ConvError) : String :=
  "Failed after " ++ toString MAX_RETRY_COUNT ++ " retry attempts: " ++ convErrorMessage e

/-- An error-log entry carries the final-failure marker when its message
starts with `Failed after`. -/
def hasFinalFailureMarker (fe : FileError) : Bool :=
  fe.error.data.take 12 == "Failed after".data

/-- Insertion sort with the given `le`; models `Array.prototype.sort` with the
comparator of folder-processor.ts line 32 (any comparison-sort is
observationally determined by the comparator, which lives in `Env`). -/
def insertSorted (le : α → α → Bool) (x : α) : List α → List α
  | [] => [x]
  | y :: ys => if le x y then x :: y :: ys else y :: insertSorted le x ys

def sortBy (le : α → α → Bool) : List α → List α
  | [] => []
  | x :: xs => insertSorted le x (sortBy le xs)

/-- Comparator on tasks: natural comparison of the base file names. -/
def fileLeTask (env : Env) (a b : ConversionTask) : Bool :=
  env.fileLe (baseName a.inputPath) (baseName b.inputPath)

def sortFiles (env : Env) (l : List ConversionTask) : List ConversionTask :=
  sortBy (fileLeTask env) l

/-- The reassignment `files.forEach((task, index) => task.originalIndex = index)`. -/
def reindexFrom (i : Nat) : List ConversionTask → List ConversionTask
  | [] => []
  | t :: ts => { t with originalIndex := i } :: reindexFrom (i + 1) ts

/-- Result of the first sequential pass over one folder: the three counters,
the tasks pushed onto `errorFiles`, and the final run state. -/
structure PassResult where
  success : Nat
  error : Nat
  skipped : Nat
  errs : List ConversionTask
  st : RunState
deriving DecidableEq

/-- The per-file loop of `processFilesInFolder` (lines 52-86): skip when the
expected output already exists, otherwise convert; on failure count the error,
push the task for retry and log; in every case increment the shared progress
counter once, after the outcome. -/
def processFiles (env : Env) : List ConversionTask → RunState → PassResult
  | [], st => ⟨0, 0, 0, [], st⟩
  | t :: rest, st =>
    if SKIP_EXISTING_FILES = true ∧ expectedPair t ∈ st.fs.outputFiles then
      let r := processFiles env rest st.bump
      { r with skipped := r.skipped + 1 }
    else
      match convertFile env t 0 st.fs with
      | (.ok _, fs') =>
        let r := processFiles env rest (RunState.bump { st with fs := fs' })
        { r with success := r.success + 1 }
      | (.error e, fs') =>
        let st' := RunState.bump
          { st with fs := fs',
                    log := st.log ++ [mkErrorEntry t.inputPath (convErrorMessage e)] }
        let r := processFiles env rest st'
        { r with error := r.error + 1, errs := t :: r.errs }

/-- The `{successCount, errorCount, skippedCount}` record returned per folder,
and also the aggregate of `processFilesByFolder`. -/
structure FolderResult where
  successCount : Nat
  errorCount : Nat
  skippedCount : Nat
deriving DecidableEq

/-- The worker pass `processFilesInFolder` (folder-processor.ts lines 21-89): sort by base
name, reassign `originalIndex` in sorted order, then run the sequential pass.
Failed tasks are pushed onto the folder's `errorFiles`. -/
def processFilesInFolder (env : Env) (ft : FolderConversionTask) (st : RunState) :
    FolderResult × FolderConversionTask × RunState :=
  let files' := reindexFrom 0 (sortFiles env ft.files)
  let r := processFiles env files' st
  (⟨r.success, r.error, r.skipped⟩,
   { ft with files := files', errorFiles := ft.errorFiles ++ r.errs },
   r.st)

/-- The attempt loop of `retryFailedFiles` (lines 112-136) for one task:
up to `fuel` further attempts, stopping at the first success; on the very last
failed attempt the final-failure entry is logged. `k` is the invocation
number handed to the encoder oracle. The shared progress counter is
deliberately not touched (source comment, lines 122-123). -/
def retryLoop (env : Env) (t : ConversionTask) (k : Nat) :
    Nat → RunState → Bool × RunState
  | 0, st => (false, st)
  | fuel + 1, st =>
    match convertFile env t k st.fs with
    | (.ok _, fs') => (true, { st with fs := fs' })
    | (.error e, fs') =>
      let st' : RunState :=
        if fuel = 0 then
          { st with fs := fs',
                    log := st.log ++ [mkErrorEntry t.inputPath (finalFailureMessage e)] }
        else { st with fs := fs' }
      retryLoop env t (k + 1) fuel st'

/-- The outer loop of `retryFailedFiles`: retry every task of `errorFiles` in
order, counting successes. Invocation numbers continue after the first pass's
invocation `0`. -/
def retryFiles (env : Env) : List ConversionTask → RunState → Nat × RunState
  | [], st => (0, st)
  | t :: rest, st =>
    let (ok, st') := retryLoop env t 1 MAX_RETRY_COUNT st
    let (s, st'') := retryFiles env rest st'
    ((if ok then 1 else 0) + s, st'')

structure RetryResult where
  successCount : Nat
  errorCount : Nat
deriving DecidableEq

/-- The retry pass `retryFailedFiles` (folder-processor.ts lines 92-143). Note that the
source never removes anything from `folderTask.errorFiles`; it only reads it.
`errorCount` is `remainingErrors = errorFiles.length - successCount`. -/
def retryFailedFiles (env : Env) (ft : FolderConversionTask) (st : RunState) :
    RetryResult × RunState :=
  if ft.errorFiles.length = 0 then (⟨0, 0⟩, st)
  else
    let (s, st') := retryFiles env ft.errorFiles st
    (⟨s, ft.errorFiles.length - s⟩, st')

/-- One worker's job `processSingleFolder` (batch-processor, pool variant, lines 50-85):
first pass, then — only when errors occurred — the retry pass, folding each
retry success into the counters (`successCount += r, errorCount -= r`);
finally the folder is marked completed. `checkFolderCompletion` only writes
diagnostics to the console and is therefore not modelled. -/
def processSingleFolder (env : Env) (ft : FolderConversionTask) (st : RunState) :
    FolderResult × FolderConversionTask × RunState :=
  let (r, ft', st') := processFilesInFolder env ft st
  if r.errorCount > 0 then
    let (rr, st'') := retryFailedFiles env ft' st'
    (⟨r.successCount + rr.successCount, r.errorCount - rr.successCount, r.skippedCount⟩,
     { ft' with completed := true }, st'')
  else
    (r, { ft' with completed := true }, st')

/-! ## Grouping and the folder-level driver (worker-pool variant) -/

/-- Append a task to its folder's bucket, keeping first-seen key order
(models the insertion-ordered `Map` of processFilesByFolder). -/
def addToGroups (gs : List (String × List ConversionTask)) (key : String)
    (t : ConversionTask) : List (String × List ConversionTask) :=
  match gs with
  | [] => [(key, [t])]
  | (k, l) :: rest =>
    if k = key then (k, l ++ [t]) :: rest
    else (k, l) :: addToGroups rest key t

/-- Group the flat task list by `dirname(task.inputPath)`. -/
def groupTasks (tasks : List ConversionTask) : List (String × List ConversionTask) :=
  tasks.foldl (fun gs t => addToGroups gs (dirName t.inputPath) t) []

/-- One `FolderConversionTask` per group, with `errorFiles = []`,
`completed = false`. -/
def mkFolderTasks (tasks : List ConversionTask) : List FolderConversionTask :=
  (groupTasks tasks).map (fun g => ⟨g.1, g.2, [], false⟩)

/-- Run the folder workers over the queue. The worker pool interleaves
folders at await points, but every folder is processed exactly once and the
per-folder computations combine only through the shared counters and the
target tree, which they update by commutative additions/insertions; this
sequential fold is the pool's behaviour up to folder completion order. -/
def runFolders (env : Env) : List FolderConversionTask → RunState → FolderResult × RunState
  | [], st => (⟨0, 0, 0⟩, st)
  | ft :: rest, st =>
    let (r, _, st') := processSingleFolder env ft st
    let (tot, st'') := runFolders env rest st'
    (⟨r.successCount + tot.successCount, r.errorCount + tot.errorCount,
      r.skippedCount + tot.skippedCount⟩, st'')

/-- The fresh `ProgressInfo`/state a run starts with: `current = 0`, empty
target tree, empty log. -/
def initialRunState : RunState := ⟨⟨[], []⟩, 0, []⟩

/-- The driver `processFilesByFolder` (the worker-pool variant): group, then drain the
folder queue. -/
def processFilesByFolder (env : Env) (tasks : List ConversionTask) (st : RunState) :
    FolderResult × RunState :=
  runFolders env (mkFolderTasks tasks) st

/-! ## Discovery path composition (src/core/controller.ts lines 58-62) -/

/-- The mapping `pathParts.map(part => sanitizePath(part))`. -/
def sanitizeParts (parts : List String) : List String := parts.map sanitizePath

/-- The join `sanitizedParts.join("/")`, the sanitized relative path under the target
root. -/
def sanitizedRelPath (parts : List String) : String :=
  String.intercalate "/" (sanitizeParts parts)

/-! ## Directory renamer (src/core/directory-handler.ts, lines 61-118)

`renameSpecialCharFolders` walks all directories deepest-first. Restricted to
the children of one fixed parent (siblings, all at one depth, processed in
list order; the parent itself is renamed later, so no entry is skipped as
stale), the per-directory body is `renameStep` below. Renaming to a free
destination always succeeds in this model; OS-level failures other than
"destination exists" are environmental and not modelled, so the catch-block
numeric fallback coincides with the destination-exists branch. -/

/-- State of the rename pass over one parent directory: the directory names
currently on disk, the `usedNames` dedup map (key: lowercased sanitized name),
the renames performed, and the count of abandoned renames. -/
structure RenameState where
  fsNames : List String
  usedNames : List (String × Nat)
  renames : List (String × String)
  renameErrors : Nat
deriving DecidableEq

def lookupKey : List (String × Nat) → String → Option Nat
  | [], _ => none
  | (k, n) :: rest, key => if k = key then some n else lookupKey rest key

def setKey : List (String × Nat) → String → Nat → List (String × Nat)
  | [], key, n => [(key, n)]
  | (k, m) :: rest, key, n =>
    if k = key then (k, n) :: rest else (k, m) :: setKey rest key n

/-- The numbered-alternative search (lines 89-104): try `base_1`, `base_2`, …
until a free name is found; the counter is bounded by 100, and when every
candidate up to `base_99` is taken the loop ends at `base_99` (which then
collides). -/
def findAltAux (fs : List String) (base : String) : Nat → Nat → String
  | counter, 0 => base ++ "_" ++ toString counter
  | counter, fuel + 1 =>
    let cand := base ++ "_" ++ toString counter
    if cand ∈ fs then
      match fuel with
      | 0 => cand
      | _ + 1 => findAltAux fs base (counter + 1) fuel
    else cand

def findAlt (fs : List String) (base : String) : String := findAltAux fs base 1 99

/-- Process one directory name `d`: when its sanitized name differs, pick the
destination (suffixing `_n` when `usedNames` has seen this sanitized name in
this parent), then rename — falling back to the numbered alternative when the
destination already exists, and abandoning (logged, counted) when even the
alternative is taken. -/
def renameStep (st : RenameState) (d : String) : RenameState :=
  let s := sanitizePath d
  if d = s then st
  else
    let key := s.toLower
    let pick : String × List (String × Nat) :=
      match lookupKey st.usedNames key with
      | some n => (s ++ "_" ++ toString (n + 1), setKey st.usedNames key (n + 1))
      | none => (s, setKey st.usedNames key 0)
    let s' := pick.1
    let used' := pick.2
    if s' ∈ st.fsNames then
      let alt := findAlt st.fsNames s'
      if alt ∈ st.fsNames then
        { st with usedNames := used', renameErrors := st.renameErrors + 1 }
      else
        { fsNames := (st.fsNames.erase d) ++ [alt],
          usedNames := used',
          renames := st.renames ++ [(d, alt)],
          renameErrors := st.renameErrors }
    else
      { fsNames := (st.fsNames.erase d) ++ [s'],
        usedNames := used',
        renames := st.renames ++ [(d, s')],
        renameErrors := st.renameErrors }

/-- The rename pass over the sibling directories of one parent, in walk
order. -/
def renameSpecialCharFolders (names : List String) : RenameState :=
  names.foldl renameStep ⟨names, [], [], 0⟩

/-! ## Worker pool scheduler (src/core/batch-processor.ts, pool variant,
lines 87-158)

`processNextFolder` invocations and worker completions interleave on the
event loop. A pool configuration is: the number of `processNextFolder` calls
scheduled but not yet run (`pending`), the number of folders currently being
processed (`active`, the source's `activeWorkers`), and the queue. The start
loop (line 155) schedules `min(W, folders.length)` calls; a running call pops
a folder and makes it active, or does nothing when the queue is empty; a
completing worker decrements `active` and schedules one further call. -/

structure PoolState where
  pending : Nat
  active : Nat
  queue : List String
deriving DecidableEq

/-- The state just after the start loop scheduled its calls. -/
def initPoolState (w : Nat) (folders : List String) : PoolState :=
  ⟨min w folders.length, 0, folders⟩

/-- One event-loop step of the pool. -/
inductive PoolStep : PoolState → PoolState → Prop
  | takeFolder (p a : Nat) (f : String) (q : List String) :
      PoolStep ⟨p + 1, a, f :: q⟩ ⟨p, a + 1, q⟩
  | emptyCall (p a : Nat) :
      PoolStep ⟨p + 1, a, []⟩ ⟨p, a, []⟩
  | finishFolder (p a : Nat) (q : List String) :
      PoolStep ⟨p, a + 1, q⟩ ⟨p + 1, a, q⟩

/-- The configurations the pool can reach during a run. -/
def PoolReachable (w : Nat) (folders : List String) (st : PoolState) : Prop :=
  Relation.ReflTransGen PoolStep (initPoolState w folders) st

/-! ## Concrete fixtures used by witnesses and counterexamples -/

def sampleTask : ConversionTask := ⟨"src/a/1.png", "out/a", "a", 0⟩

def sampleTask2 : ConversionTask := ⟨"src/a/2.png", "out/a", "a", 0⟩

def sampleFolder : FolderConversionTask := ⟨"src/a", [sampleTask], [], false⟩

/-- An environment whose encoder subprocess always exits non-zero. -/
def alwaysFailEnv : Env := ⟨fun _ _ => .subprocessFail, fun _ _ => true⟩

/-- An environment whose encoder fails on the first invocation of each file
and succeeds on every retry. -/
def failThenOkEnv : Env := ⟨fun _ k => if k = 0 then .subprocessFail else .ok, fun _ _ => true⟩

def allOkEnv : Env := ⟨fun _ _ => .ok, fun _ _ => true⟩

/-- An environment whose encoder exits zero but never produces the staged
output file. -/
def noOutputEnv : Env := ⟨fun _ _ => .noOutput, fun _ _ => true⟩

/-- A target tree that already holds `sampleFolder`'s expected output. -/
def skipState : RunState := ⟨⟨[("out/a", "001.avif")], []⟩, 0, []⟩

/-! ### Shape of sanitizer output -/

/-- Every character is outside the forbidden set, and every whitespace
character is a plain space. -/
def allGoodChars (l : List Char) : Bool :=
  l.all (fun c => !isForbidden c && (!isWS c || c == ' '))

/-- No two adjacent whitespace characters (whitespace runs are collapsed). -/
def noAdjWS : List Char → Bool
  | a :: b :: rest => !(isWS a && isWS b) && noAdjWS (b :: rest)
  | _ => true

/-- The first character, if any, is not whitespace. -/
def headOk : List Char → Bool
  | [] => true
  | c :: _ => !isWS c

/-- The last character, if any, is not whitespace. -/
def lastOk : List Char → Bool
  | [] => true
  | [c] => !isWS c
  | _ :: c :: rest => lastOk (c :: rest)

theorem isWS_space : isWS ' ' = true := by decide

theorem isForbidden_space : isForbidden ' ' = false := by decide

theorem noAdjWS_cons {c : Char} {l : List Char} :
    noAdjWS (c :: l) = true ↔
      ((∀ d, l.head? = some d → ¬(isWS c = true ∧ isWS d = true)) ∧ noAdjWS l = true) := by
  cases l with
  | nil => simp [noAdjWS]
  | cons d rest =>
    simp only [noAdjWS, Bool.and_eq_true, Bool.not_eq_true', List.head?]
    constructor
    · rintro ⟨h1, h2⟩
      refine ⟨?_, h2⟩
      rintro e he ⟨hc, hd⟩
      cases he
      simp [hc, hd] at h1
    · rintro ⟨h1, h2⟩
      refine ⟨?_, h2⟩
      by_cases hc : isWS c = true
      · by_cases hd : isWS d = true
        · exact absurd ⟨hc, hd⟩ (h1 d rfl)
        · simp [hd]
      · simp [Bool.not_eq_true] at hc
        simp [hc]

theorem lastOk_cons {c : Char} {l : List Char} :
    lastOk (c :: l) = (if l = [] then !isWS c else lastOk l) := by
  cases l with
  | nil => simp [lastOk]
  | cons d rest => simp [lastOk]

/-- After `replaceForbidden` no character is forbidden. -/
theorem replaceForbidden_not_forbidden {l : List Char} {c : Char}
    (h : c ∈ replaceForbidden l) : isForbidden c = false := by
  induction l with
  | nil => simp [replaceForbidden] at h
  | cons a rest ih =>
    simp only [replaceForbidden, List.map_cons, List.mem_cons] at h
    rcases h with h | h
    · by_cases ha : isForbidden a = true
      · simp [ha] at h; simp [h, isForbidden_space]
      · simp [Bool.not_eq_true] at ha
        simp [ha] at h; simpa [h] using ha
    · exact ih h

/-- The collapse emits only characters of its input or spaces. -/
theorem collapseWS_mem {b : Bool} {l : List Char} {c : Char}
    (h : c ∈ collapseWS b l) : c ∈ l ∨ c = ' ' := by
  induction l generalizing b with
  | nil => simp [collapseWS] at h
  | cons a rest ih =>
    simp only [collapseWS] at h
    by_cases ha : isWS a = true
    · simp only [ha, if_true] at h
      cases b with
      | true =>
        simp only [if_true] at h
        rcases ih h with h' | h'
        · exact Or.inl (List.mem_cons_of_mem _ h')
        · exact Or.inr h'
      | false =>
        simp only [Bool.false_eq_true, if_false, List.mem_cons] at h
        rcases h with h | h
        · exact Or.inr h
        · rcases ih h with h' | h'
          · exact Or.inl (List.mem_cons_of_mem _ h')
          · exact Or.inr h'
    · simp only [Bool.not_eq_true] at ha
      simp only [ha, Bool.false_eq_true, if_false, List.mem_cons] at h
      rcases h with h | h
      · exact Or.inl (by simp [h])
      · rcases ih h with h' | h'
        · exact Or.inl (List.mem_cons_of_mem _ h')
        · exact Or.inr h'

/-- In `collapseWS` output every whitespace character is a space. -/
theorem collapseWS_ws_space {b : Bool} {l : List Char} {c : Char}
    (h : c ∈ collapseWS b l) (hws : isWS c = true) : c = ' ' := by
  induction l generalizing b with
  | nil => simp [collapseWS] at h
  | cons a rest ih =>
    simp only [collapseWS] at h
    by_cases ha : isWS a = true
    · simp only [ha, if_true] at h
      cases b with
      | true => exact ih (by simpa using h)
      | false =>
        simp only [Bool.false_eq_true, if_false, List.mem_cons] at h
        rcases h with h | h
        · exact h
        · exact ih h
    · simp only [Bool.not_eq_true] at ha
      simp only [ha, Bool.false_eq_true, if_false, List.mem_cons] at h
      rcases h with h | h
      · rw [h] at hws; rw [hws] at ha; cases ha
      · exact ih h

/-- Inside a run, the collapse never starts with a whitespace character. -/
theorem collapseWS_true_head {l : List Char} {c : Char}
    (h : (collapseWS true l).head? = some c) : isWS c = false := by
  induction l with
  | nil => simp [collapseWS] at h
  | cons a rest ih =>
    simp only [collapseWS] at h
    by_cases ha : isWS a = true
    · simp only [ha, if_true] at h
      exact ih h
    · simp only [Bool.not_eq_true] at ha
      simp only [ha, Bool.false_eq_true, if_false, List.head?_cons, Option.some.injEq] at h
      rw [← h]; exact ha

/-- The collapse output has no two adjacent whitespace characters. -/
theorem collapseWS_noAdjWS (b : Bool) (l : List Char) :
    noAdjWS (collapseWS b l) = true := by
  induction l generalizing b with
  | nil => simp [collapseWS, noAdjWS]
  | cons a rest ih =>
    simp only [collapseWS]
    by_cases ha : isWS a = true
    · simp only [ha, if_true]
      cases b with
      | true => exact ih true
      | false =>
        simp only [Bool.false_eq_true, if_false]
        rw [noAdjWS_cons]
        refine ⟨?_, ih true⟩
        intro d hd
        rintro ⟨-, hdw⟩
        rw [collapseWS_true_head hd] at hdw
        cases hdw
    · simp only [Bool.not_eq_true] at ha
      simp only [ha, Bool.false_eq_true, if_false]
      rw [noAdjWS_cons]
      refine ⟨?_, ih false⟩
      rintro d - ⟨hc, -⟩
      rw [ha] at hc; cases hc

theorem headOk_iff {l : List Char} :
    headOk l = true ↔ ∀ c, l.head? = some c → isWS c = false := by
  cases l with
  | nil => simp [headOk]
  | cons c rest =>
    simp only [headOk, List.head?_cons, Bool.not_eq_true']
    constructor
    · rintro h d hd; cases hd; exact h
    · intro h; exact h c rfl

/-- The right trim is a prefix of its input. -/
theorem trimRight_prefix (l : List Char) : ∃ t, l = trimRight l ++ t := by
  induction l with
  | nil => exact ⟨[], rfl⟩
  | cons c rest ih =>
    rcases ih with ⟨t, ht⟩
    simp only [trimRight]
    cases hr : trimRight rest with
    | nil =>
      by_cases hc : isWS c = true
      · simp only [hc, if_true]
        exact ⟨c :: rest, rfl⟩
      · simp only [Bool.not_eq_true] at hc
        simp only [hc, Bool.false_eq_true, if_false]
        rw [hr] at ht
        exact ⟨t, by simp [ht]⟩
    | cons d r =>
      rw [hr] at ht
      exact ⟨t, by simp [ht]⟩

/-- A prefix of a list with no adjacent whitespace has no adjacent whitespace. -/
theorem noAdjWS_append_left {l₁ l₂ : List Char}
    (h : noAdjWS (l₁ ++ l₂) = true) : noAdjWS l₁ = true := by
  induction l₁ with
  | nil => simp [noAdjWS]
  | cons c rest ih =>
    rw [List.cons_append, noAdjWS_cons] at h
    rw [noAdjWS_cons]
    rcases h with ⟨h1, h2⟩
    refine ⟨?_, ih h2⟩
    intro d hd
    exact h1 d (by cases rest <;> simp_all)

/-- A suffix of a list with no adjacent whitespace has no adjacent whitespace. -/
theorem noAdjWS_append_right {l₁ l₂ : List Char}
    (h : noAdjWS (l₁ ++ l₂) = true) : noAdjWS l₂ = true := by
  induction l₁ with
  | nil => simpa using h
  | cons c rest ih =>
    rw [List.cons_append, noAdjWS_cons] at h
    exact ih h.2

/-- The last character of `trimRight` output is never whitespace. -/
theorem lastOk_trimRight (l : List Char) : lastOk (trimRight l) = true := by
  induction l with
  | nil => simp [trimRight, lastOk]
  | cons c rest ih =>
    simp only [trimRight]
    cases hr : trimRight rest with
    | nil =>
      by_cases hc : isWS c = true
      · simp [hc, lastOk]
      · simp only [Bool.not_eq_true] at hc
        simp [hc, lastOk]
    | cons d r =>
      rw [hr] at ih
      rw [lastOk_cons]
      simp [ih]

/-- When the tail keeps characters, `trimRight` keeps the head. -/
theorem trimRight_cons_ne {c : Char} {rest : List Char} (h : trimRight rest ≠ []) :
    trimRight (c :: rest) = c :: trimRight rest := by
  cases hr : trimRight rest with
  | nil => exact absurd hr h
  | cons d r => simp [trimRight, hr]

/-- If the last character is already fine, `trimRight` is the identity. -/
theorem trimRight_eq_self {l : List Char} (h : lastOk l = true) : trimRight l = l := by
  induction l with
  | nil => rfl
  | cons c rest ih =>
    rw [lastOk_cons] at h
    cases hrest : rest with
    | nil =>
      subst hrest
      simp only [if_true] at h
      simp only [Bool.not_eq_true'] at h
      simp [trimRight, h]
    | cons d r =>
      subst hrest
      have hne : (d :: r : List Char) ≠ [] := by simp
      rw [if_neg hne] at h
      have hih := ih h
      rw [trimRight_cons_ne (by simp [hih]), hih]

/-- The head of `dropWhile isWS` is never whitespace. -/
theorem headOk_dropWhile (l : List Char) : headOk (l.dropWhile isWS) = true := by
  induction l with
  | nil => simp [headOk]
  | cons c rest ih =>
    by_cases hc : isWS c = true
    · rw [List.dropWhile_cons_of_pos hc]; exact ih
    · rw [List.dropWhile_cons_of_neg hc]
      simp only [Bool.not_eq_true] at hc
      simp [headOk, hc]

/-- If the head is already fine, `dropWhile isWS` is the identity. -/
theorem dropWhile_eq_self {l : List Char} (h : headOk l = true) :
    l.dropWhile isWS = l := by
  cases l with
  | nil => rfl
  | cons c rest =>
    simp only [headOk, Bool.not_eq_true'] at h
    rw [List.dropWhile_cons_of_neg (by simp [h])]

/-- Dropping a prefix by predicate yields a suffix. -/
theorem dropWhile_suffix_decomp (l : List Char) :
    ∃ t, l = t ++ l.dropWhile isWS := by
  induction l with
  | nil => exact ⟨[], rfl⟩
  | cons c rest ih =>
    by_cases hc : isWS c = true
    · rcases ih with ⟨t, ht⟩
      rw [List.dropWhile_cons_of_pos hc]
      exact ⟨c :: t, by simp [← ht]⟩
    · rw [List.dropWhile_cons_of_neg hc]
      exact ⟨[], rfl⟩

theorem trimRight_mem {l : List Char} {c : Char} (h : c ∈ trimRight l) : c ∈ l := by
  rcases trimRight_prefix l with ⟨t, ht⟩
  rw [ht]
  exact List.mem_append_left _ h

theorem trimWS_mem {l : List Char} {c : Char} (h : c ∈ trimWS l) : c ∈ l := by
  have h1 := trimRight_mem h
  rcases dropWhile_suffix_decomp l with ⟨t, ht⟩
  rw [ht]
  exact List.mem_append_right _ h1

/-- Trimming preserves the no-adjacent-whitespace property. -/
theorem noAdjWS_trimWS {l : List Char} (h : noAdjWS l = true) :
    noAdjWS (trimWS l) = true := by
  rcases dropWhile_suffix_decomp l with ⟨t, ht⟩
  have h1 : noAdjWS (l.dropWhile isWS) = true := noAdjWS_append_right (ht ▸ h)
  rcases trimRight_prefix (l.dropWhile isWS) with ⟨t', ht'⟩
  exact noAdjWS_append_left (ht' ▸ h1)

/-- The head of `trimWS` output is never whitespace. -/
theorem headOk_trimWS (l : List Char) : headOk (trimWS l) = true := by
  have h := headOk_dropWhile l
  unfold trimWS
  cases hd : l.dropWhile isWS with
  | nil => simp [trimRight, headOk]
  | cons c rest =>
    rw [hd] at h
    simp only [headOk, Bool.not_eq_true'] at h
    simp only [trimRight]
    cases hr : trimRight rest with
    | nil => simp [h, headOk]
    | cons d r => simp [headOk, h]

/-- Trimmed output ends well. -/
theorem lastOk_trimWS (l : List Char) : lastOk (trimWS l) = true :=
  lastOk_trimRight _

/-- On an already-trimmed list, `trimWS` is the identity. -/
theorem trimWS_eq_self {l : List Char} (h1 : headOk l = true) (h2 : lastOk l = true) :
    trimWS l = l := by
  unfold trimWS
  rw [dropWhile_eq_self h1, trimRight_eq_self h2]

/-- On a list without forbidden characters, `replaceForbidden` is the identity. -/
theorem replaceForbidden_eq_self {l : List Char}
    (h : ∀ c ∈ l, isForbidden c = false) : replaceForbidden l = l := by
  induction l with
  | nil => rfl
  | cons c rest ih =>
    simp only [replaceForbidden, List.map_cons]
    rw [h c (List.mem_cons_self c rest)]
    simp only [Bool.false_eq_true, if_false, List.cons.injEq, true_and]
    exact ih (fun d hd => h d (List.mem_cons_of_mem _ hd))

/-- On a good, run-free list, `collapseWS false` is the identity. -/
theorem collapseWS_eq_self {l : List Char}
    (hg : allGoodChars l = true) (hn : noAdjWS l = true) :
    collapseWS false l = l := by
  induction l with
  | nil => rfl
  | cons c rest ih =>
    simp only [allGoodChars, List.all_cons, Bool.and_eq_true] at hg
    rcases hg with ⟨hc, hrest⟩
    rw [noAdjWS_cons] at hn
    rcases hn with ⟨hadj, hn⟩
    by_cases hws : isWS c = true
    · have hsp : c = ' ' := by
        rcases hc with ⟨-, h2⟩
        rcases Bool.or_eq_true _ _ |>.mp h2 with h | h
        · rw [Bool.not_eq_true'] at h; rw [h] at hws; cases hws
        · exact eq_of_beq h
      simp only [collapseWS, hws, if_true, Bool.false_eq_true]
      have hrest' : collapseWS true rest = rest := by
        cases rest with
        | nil => rfl
        | cons d r =>
          have hd : isWS d = false := by
            by_cases hdw : isWS d = true
            · exact absurd ⟨hws, hdw⟩ (hadj d rfl)
            · simpa [Bool.not_eq_true] using hdw
          simp only [collapseWS, hd, Bool.false_eq_true, if_false]
          have := ih (by simpa [allGoodChars] using hrest) hn
          simpa [collapseWS, hd] using this
      simp [hsp, hrest']
    · simp only [Bool.not_eq_true] at hws
      simp only [collapseWS, hws, Bool.false_eq_true, if_false]
      rw [ih (by simpa [allGoodChars] using hrest) hn]

/-- The sanitizer output is good: no forbidden characters, all whitespace is a
single space, no whitespace runs, trimmed at both ends. -/
theorem sanitizeList_good (l : List Char) :
    allGoodChars (sanitizeList l) = true ∧ noAdjWS (sanitizeList l) = true ∧
    headOk (sanitizeList l) = true ∧ lastOk (sanitizeList l) = true := by
  refine ⟨?_, ?_, headOk_trimWS _, lastOk_trimWS _⟩
  · rw [allGoodChars, List.all_eq_true]
    intro c hc
    have hc' : c ∈ collapseWS false (replaceForbidden l) := trimWS_mem hc
    have hforb : isForbidden c = false := by
      rcases collapseWS_mem hc' with h | h
      · exact replaceForbidden_not_forbidden h
      · rw [h]; exact isForbidden_space
    rw [hforb]
    simp only [Bool.not_false, Bool.true_and, Bool.or_eq_true, Bool.not_eq_true']
    by_cases hws : isWS c = true
    · refine Or.inr ?_
      rw [collapseWS_ws_space hc' hws]
      decide
    · exact Or.inl (by simpa [Bool.not_eq_true] using hws)
  · exact noAdjWS_trimWS (collapseWS_noAdjWS false _)

/-- On good input the whole sanitizer is the identity. -/
theorem sanitizeList_eq_self {l : List Char}
    (hg : allGoodChars l = true) (hn : noAdjWS l = true)
    (hh : headOk l = true) (hl : lastOk l = true) :
    sanitizeList l = l := by
  have hforb : ∀ c ∈ l, isForbidden c = false := by
    intro c hc
    rw [allGoodChars, List.all_eq_true] at hg
    rcases Bool.and_eq_true _ _ |>.mp (hg c hc) with ⟨h1, -⟩
    simpa [Bool.not_eq_true'] using h1
  unfold sanitizeList
  rw [replaceForbidden_eq_self hforb, collapseWS_eq_self hg hn, trimWS_eq_self hh hl]

/-- The sanitizer is idempotent at the list level. -/
theorem sanitizeList_idem (l : List Char) :
    sanitizeList (sanitizeList l) = sanitizeList l := by
  rcases sanitizeList_good l with ⟨h1, h2, h3, h4⟩
  exact sanitizeList_eq_self h1 h2 h3 h4

/-! ### First-pass lemmas (processFiles) -/

theorem insertSorted_length (le : α → α → Bool) (x : α) (l : List α) :
    (insertSorted le x l).length = l.length + 1 := by
  induction l with
  | nil => rfl
  | cons y ys ih =>
    simp only [insertSorted]
    by_cases h : le x y = true
    · simp [h]
    · simp only [Bool.not_eq_true] at h
      simp [h, ih]

theorem sortBy_length (le : α → α → Bool) (l : List α) :
    (sortBy le l).length = l.length := by
  induction l with
  | nil => rfl
  | cons x xs ih => simp [sortBy, insertSorted_length, ih]

theorem reindexFrom_length (i : Nat) (l : List ConversionTask) :
    (reindexFrom i l).length = l.length := by
  induction l generalizing i with
  | nil => rfl
  | cons t ts ih => simp [reindexFrom, ih]

theorem sortFiles_length (env : Env) (l : List ConversionTask) :
    (sortFiles env l).length = l.length := sortBy_length _ _

/-- First pass: the three counters of one folder partition its file list. -/
theorem processFiles_sum (env : Env) (l : List ConversionTask) (st : RunState) :
    (processFiles env l st).success + (processFiles env l st).error +
      (processFiles env l st).skipped = l.length := by
  induction l generalizing st with
  | nil => simp [processFiles]
  | cons t rest ih =>
    simp only [processFiles, List.length_cons]
    split
    · have h := ih st.bump
      dsimp only
      omega
    · split
      · next fs' heq =>
        have h := ih (RunState.bump { st with fs := fs' })
        dsimp only
        omega
      · next e fs' heq =>
        have h := ih (RunState.bump { st with fs := fs', log := st.log ++ [mkErrorEntry t.inputPath (convErrorMessage e)] })
        dsimp only
        omega

/-! ### convertFile lemmas -/

/-- Conversion succeeds exactly when the encoder invocation fully
succeeds. -/
theorem convertFile_isOk (env : Env) (t : ConversionTask) (k : Nat) (fs : FsState) :
    (convertFile env t k fs).1 = Except.ok () ↔ env.encoder t.inputPath k = .ok := by
  cases ho : env.encoder t.inputPath k <;> simp [convertFile, ho]

/-- On every failure path the output directory gains no file. -/
theorem convertFile_error_outputs (env : Env) (t : ConversionTask) (k : Nat) (fs : FsState)
    (h : env.encoder t.inputPath k ≠ .ok) :
    (convertFile env t k fs).2.outputFiles = fs.outputFiles := by
  cases ho : env.encoder t.inputPath k with
  | ok => exact absurd ho h
  | copyFail => simp [convertFile, ho]
  | subprocessFail => simp [convertFile, ho, FsState.recordInvoke]
  | noOutput => simp [convertFile, ho, FsState.recordInvoke]
  | moveFail => simp [convertFile, ho, FsState.recordInvoke]

/-- The "encoder reported success but produced no output" case raises the
distinct `missingOutput` error. -/
theorem convertFile_noOutput_err (env : Env) (t : ConversionTask) (k : Nat) (fs : FsState)
    (h : env.encoder t.inputPath k = .noOutput) :
    (convertFile env t k fs).1 = Except.error ConvError.missingOutput := by
  simp [convertFile, h]

/-- On full success exactly the final sequential name appears. -/
theorem convertFile_ok_outputs (env : Env) (t : ConversionTask) (k : Nat) (fs : FsState)
    (h : env.encoder t.inputPath k = .ok) :
    (convertFile env t k fs).2.outputFiles =
      (if (t.outputPath, targetFileName t) ∈ fs.outputFiles then fs.outputFiles
       else fs.outputFiles ++ [(t.outputPath, targetFileName t)]) := by
  by_cases hm : (t.outputPath, targetFileName t) ∈ fs.outputFiles
  · simp [convertFile, h, FsState.addOutput, FsState.recordInvoke, hm]
  · simp [convertFile, h, FsState.addOutput, FsState.recordInvoke, hm]

/-- Any output file present after `convertFile` was either already present or
is this task's expected output, added by a fully successful invocation. -/
theorem convertFile_outputs_mem (env : Env) (t : ConversionTask) (k : Nat) (fs : FsState)
    {pr : String × String} (h : pr ∈ (convertFile env t k fs).2.outputFiles) :
    pr ∈ fs.outputFiles ∨ (pr = expectedPair t ∧ env.encoder t.inputPath k = .ok) := by
  cases ho : env.encoder t.inputPath k with
  | ok =>
    rw [convertFile_ok_outputs env t k fs ho] at h
    by_cases hm : (t.outputPath, targetFileName t) ∈ fs.outputFiles
    · rw [if_pos hm] at h; exact Or.inl h
    · rw [if_neg hm] at h
      rcases List.mem_append.mp h with h' | h'
      · exact Or.inl h'
      · refine Or.inr ⟨?_, rfl⟩
        simpa [expectedPair] using h'
  | copyFail => simp [convertFile, ho, FsState.recordInvoke] at h; exact Or.inl h
  | subprocessFail => simp [convertFile, ho, FsState.recordInvoke] at h; exact Or.inl h
  | noOutput => simp [convertFile, ho, FsState.recordInvoke] at h; exact Or.inl h
  | moveFail => simp [convertFile, ho, FsState.recordInvoke] at h; exact Or.inl h

/-! ### More first-pass lemmas -/

/-- The first pass increments the shared progress counter exactly once per
file: after the pass it grew by exactly the folder's file count. -/
theorem processFiles_progress (env : Env) (l : List ConversionTask) (st : RunState) :
    (processFiles env l st).st.progress = st.progress + l.length := by
  induction l generalizing st with
  | nil => simp [processFiles]
  | cons t rest ih =>
    simp only [processFiles, List.length_cons]
    split
    · have h := ih st.bump
      dsimp only
      rw [h]
      show st.progress + 1 + rest.length = st.progress + (rest.length + 1)
      omega
    · split
      · next fs' heq =>
        have h := ih (RunState.bump { st with fs := fs' })
        dsimp only
        rw [h]
        show st.progress + 1 + rest.length = st.progress + (rest.length + 1)
        omega
      · next e fs' heq =>
        have h := ih (RunState.bump { st with fs := fs', log := st.log ++ [mkErrorEntry t.inputPath (convErrorMessage e)] })
        dsimp only
        rw [h]
        show st.progress + 1 + rest.length = st.progress + (rest.length + 1)
        omega

/-- The tasks pushed for retry are exactly as many as the counted errors. -/
theorem processFiles_errs_length (env : Env) (l : List ConversionTask) (st : RunState) :
    (processFiles env l st).errs.length = (processFiles env l st).error := by
  induction l generalizing st with
  | nil => simp [processFiles]
  | cons t rest ih =>
    simp only [processFiles]
    split
    · have h := ih st.bump
      dsimp only
      exact h
    · split
      · next fs' heq =>
        have h := ih (RunState.bump { st with fs := fs' })
        dsimp only
        exact h
      · next e fs' heq =>
        have h := ih (RunState.bump { st with fs := fs', log := st.log ++ [mkErrorEntry t.inputPath (convErrorMessage e)] })
        dsimp only
        simp [h]

/-! ### Log-entry marker lemmas -/

/-- First-pass log entries never carry the final-failure marker. -/
theorem marker_plain (p : String) (e : ConvError) :
    hasFinalFailureMarker (mkErrorEntry p (convErrorMessage e)) = false := by
  cases e <;> rfl

/-- Retry-exhaustion log entries always carry the final-failure marker. -/
theorem marker_final (p : String) (e : ConvError) :
    hasFinalFailureMarker (mkErrorEntry p (finalFailureMessage e)) = true := by
  cases e <;> rfl

/-- The first pass appends exactly one marker-less log entry per failed task,
in order: the appended entries' file paths are the failed tasks' input
paths. -/
theorem processFiles_log (env : Env) (l : List ConversionTask) (st : RunState) :
    ∃ es : List FileError,
      (processFiles env l st).st.log = st.log ++ es ∧
      es.map FileError.filePath = (processFiles env l st).errs.map ConversionTask.inputPath ∧
      ∀ fe ∈ es, hasFinalFailureMarker fe = false := by
  induction l generalizing st with
  | nil => exact ⟨[], by simp [processFiles], by simp [processFiles], by simp⟩
  | cons t rest ih =>
    simp only [processFiles]
    split
    · rcases ih st.bump with ⟨es, h1, h2, h3⟩
      refine ⟨es, ?_, ?_, h3⟩
      · dsimp only
        rw [h1]
        rfl
      · dsimp only
        exact h2
    · split
      · next fs' heq =>
        rcases ih (RunState.bump { st with fs := fs' }) with ⟨es, h1, h2, h3⟩
        refine ⟨es, ?_, ?_, h3⟩
        · dsimp only
          rw [h1]
          rfl
        · dsimp only
          exact h2
      · next e fs' heq =>
        rcases ih (RunState.bump { st with fs := fs', log := st.log ++ [mkErrorEntry t.inputPath (convErrorMessage e)] }) with ⟨es, h1, h2, h3⟩
        refine ⟨mkErrorEntry t.inputPath (convErrorMessage e) :: es, ?_, ?_, ?_⟩
        · dsimp only
          rw [h1]
          show (st.log ++ [mkErrorEntry t.inputPath (convErrorMessage e)]) ++ es =
            st.log ++ (mkErrorEntry t.inputPath (convErrorMessage e) :: es)
          simp
        · dsimp only
          simp only [List.map_cons]
          rw [h2]
          rfl
        · intro fe hfe
          rcases List.mem_cons.mp hfe with hfe | hfe
          · rw [hfe]; exact marker_plain _ _
          · exact h3 fe hfe

/-- Any output file present after the first pass was already present or is the
expected output of one of the pass's tasks, produced by a fully successful
first-attempt invocation. -/
theorem processFiles_outputs_mem (env : Env) (l : List ConversionTask) (st : RunState)
    {pr : String × String} (h : pr ∈ (processFiles env l st).st.fs.outputFiles) :
    pr ∈ st.fs.outputFiles ∨
      ∃ t ∈ l, pr = expectedPair t ∧ env.encoder t.inputPath 0 = .ok := by
  induction l generalizing st with
  | nil => simp only [processFiles] at h; exact Or.inl h
  | cons t rest ih =>
    simp only [processFiles] at h
    split at h
    · rcases ih _ h with h' | ⟨u, hu, h'⟩
      · exact Or.inl h'
      · exact Or.inr ⟨u, List.mem_cons_of_mem _ hu, h'⟩
    · split at h
      · next fs' heq =>
        dsimp only at h
        rcases ih _ h with h' | ⟨u, hu, h'⟩
        · have hmem : pr ∈ (convertFile env t 0 st.fs).2.outputFiles := by
            rw [heq]; exact h'
          rcases convertFile_outputs_mem env t 0 st.fs hmem with h'' | h''
          · exact Or.inl h''
          · exact Or.inr ⟨t, List.mem_cons_self _ _, h''⟩
        · exact Or.inr ⟨u, List.mem_cons_of_mem _ hu, h'⟩
      · next e fs' heq =>
        dsimp only at h
        rcases ih _ h with h' | ⟨u, hu, h'⟩
        · have hmem : pr ∈ (convertFile env t 0 st.fs).2.outputFiles := by
            rw [heq]; exact h'
          rcases convertFile_outputs_mem env t 0 st.fs hmem with h'' | h''
          · exact Or.inl h''
          · exact Or.inr ⟨t, List.mem_cons_self _ _, h''⟩
        · exact Or.inr ⟨u, List.mem_cons_of_mem _ hu, h'⟩

/-- When every expected output already exists, the whole pass only counts
skips and bumps progress: no conversion, no write, no log entry. -/
theorem processFiles_allSkip (env : Env) (l : List ConversionTask) (st : RunState)
    (h : ∀ t ∈ l, expectedPair t ∈ st.fs.outputFiles) :
    processFiles env l st =
      ⟨0, 0, l.length, [], { st with progress := st.progress + l.length }⟩ := by
  induction l generalizing st with
  | nil => simp [processFiles]
  | cons t rest ih =>
    have hm : expectedPair t ∈ st.fs.outputFiles := h t (List.mem_cons_self _ _)
    have hcond : SKIP_EXISTING_FILES = true ∧ expectedPair t ∈ st.fs.outputFiles := ⟨rfl, hm⟩
    simp only [processFiles, if_pos hcond]
    rw [ih st.bump (fun u hu => h u (List.mem_cons_of_mem _ hu))]
    simp only [List.length_cons, PassResult.mk.injEq, RunState.mk.injEq, RunState.bump,
      true_and, and_true]
    omega

/-! ### Retry-phase lemmas -/

/-- The retry loop never touches the shared progress counter. -/
theorem retryLoop_progress (env : Env) (t : ConversionTask) (k fuel : Nat) (st : RunState) :
    (retryLoop env t k fuel st).2.progress = st.progress := by
  induction fuel generalizing k st with
  | zero => rfl
  | succ fuel ih =>
    simp only [retryLoop]
    split
    · rfl
    · next e fs' heq =>
      split
      · exact ih _ _
      · exact ih _ _

/-- Every log entry appended by the retry loop is a final-failure entry for
this task's input path. -/
theorem retryLoop_log_general (env : Env) (t : ConversionTask) (k fuel : Nat) (st : RunState) :
    ∃ es, (retryLoop env t k fuel st).2.log = st.log ++ es ∧
      ∀ fe ∈ es, fe.filePath = t.inputPath ∧ hasFinalFailureMarker fe = true := by
  induction fuel generalizing k st with
  | zero => exact ⟨[], by simp [retryLoop], by simp⟩
  | succ fuel ih =>
    simp only [retryLoop]
    split
    · exact ⟨[], by simp, by simp⟩
    · next e fs' heq =>
      split
      · next hz =>
        subst hz
        rcases ih (k + 1) { st with fs := fs', log := st.log ++ [mkErrorEntry t.inputPath (finalFailureMessage e)] } with ⟨es, h1, h2⟩
        refine ⟨mkErrorEntry t.inputPath (finalFailureMessage e) :: es, ?_, ?_⟩
        · rw [h1]
          simp
        · intro fe hfe
          rcases List.mem_cons.mp hfe with hfe | hfe
          · rw [hfe]
            exact ⟨rfl, marker_final _ _⟩
          · exact h2 fe hfe
      · next hz =>
        rcases ih (k + 1) { st with fs := fs' } with ⟨es, h1, h2⟩
        exact ⟨es, h1, h2⟩

/-- When the encoder always fails for this file, the retry loop fails and
appends exactly one final-failure log entry. -/
theorem retryLoop_fail (env : Env) (t : ConversionTask)
    (hf : ∀ j, env.encoder t.inputPath j ≠ .ok) (k fuel : Nat) (st : RunState)
    (hfuel : 0 < fuel) :
    (retryLoop env t k fuel st).1 = false ∧
      ∃ e, (retryLoop env t k fuel st).2.log =
        st.log ++ [mkErrorEntry t.inputPath (finalFailureMessage e)] := by
  induction fuel generalizing k st with
  | zero => cases hfuel
  | succ fuel ih =>
    have hne : env.encoder t.inputPath k ≠ .ok := hf k
    simp only [retryLoop]
    split
    · next u fs' heq =>
      exfalso
      apply hne
      have hok : (convertFile env t k st.fs).1 = Except.ok () := by rw [heq]
      exact (convertFile_isOk env t k st.fs).mp hok
    · next e fs' heq =>
      split
      · next hz =>
        subst hz
        exact ⟨rfl, e, rfl⟩
      · next hz =>
        exact ih (k + 1) { st with fs := fs' } (Nat.pos_of_ne_zero hz)

/-- The retry loop never creates an output file when the encoder never fully
succeeds for this file. -/
theorem retryLoop_fail_outputs (env : Env) (t : ConversionTask)
    (hf : ∀ j, env.encoder t.inputPath j ≠ .ok) (k fuel : Nat) (st : RunState) :
    (retryLoop env t k fuel st).2.fs.outputFiles = st.fs.outputFiles := by
  induction fuel generalizing k st with
  | zero => rfl
  | succ fuel ih =>
    simp only [retryLoop]
    split
    · next u fs' heq =>
      exfalso
      apply hf k
      have hok : (convertFile env t k st.fs).1 = Except.ok () := by rw [heq]
      exact (convertFile_isOk env t k st.fs).mp hok
    · next e fs' heq =>
      have hout : fs'.outputFiles = st.fs.outputFiles := by
        have h2 : (convertFile env t k st.fs).2.outputFiles = st.fs.outputFiles :=
          convertFile_error_outputs env t k st.fs (hf k)
        rw [heq] at h2
        exact h2
      split
      · next hz =>
        subst hz
        rw [ih (k + 1) _]
        exact hout
      · next hz =>
        rw [ih (k + 1) _]
        exact hout

/-- Any output added by the retry loop is this task's expected output, added
by a fully successful invocation. -/
theorem retryLoop_outputs_mem (env : Env) (t : ConversionTask) (k fuel : Nat) (st : RunState)
    {pr : String × String} (h : pr ∈ (retryLoop env t k fuel st).2.fs.outputFiles) :
    pr ∈ st.fs.outputFiles ∨
      (pr = expectedPair t ∧ ∃ j, env.encoder t.inputPath j = .ok) := by
  induction fuel generalizing k st with
  | zero => exact Or.inl h
  | succ fuel ih =>
    simp only [retryLoop] at h
    split at h
    · next u fs' heq =>
      have hmem : pr ∈ (convertFile env t k st.fs).2.outputFiles := by
        rw [heq]; exact h
      rcases convertFile_outputs_mem env t k st.fs hmem with h1 | ⟨h1, h2⟩
      · exact Or.inl h1
      · exact Or.inr ⟨h1, k, h2⟩
    · next e fs' heq =>
      have hout : fs'.outputFiles = (convertFile env t k st.fs).2.outputFiles := by rw [heq]
      split at h
      · next hz =>
        subst hz
        rcases ih (k + 1) _ h with h1 | h1
        · have h2 : pr ∈ (convertFile env t k st.fs).2.outputFiles := by
            rw [← hout]; exact h1
          rcases convertFile_outputs_mem env t k st.fs h2 with h3 | ⟨h3, h4⟩
          · exact Or.inl h3
          · exact Or.inr ⟨h3, k, h4⟩
        · exact Or.inr h1
      · next hz =>
        rcases ih (k + 1) _ h with h1 | h1
        · have h2 : pr ∈ (convertFile env t k st.fs).2.outputFiles := by
            rw [← hout]; exact h1
          rcases convertFile_outputs_mem env t k st.fs h2 with h3 | ⟨h3, h4⟩
          · exact Or.inl h3
          · exact Or.inr ⟨h3, k, h4⟩
        · exact Or.inr h1

/-- Unfolding equation for `retryFiles` on a non-empty list. -/
theorem retryFiles_cons (env : Env) (t : ConversionTask) (rest : List ConversionTask)
    (st : RunState) :
    retryFiles env (t :: rest) st =
      ((if (retryLoop env t 1 MAX_RETRY_COUNT st).1 then 1 else 0) +
         (retryFiles env rest (retryLoop env t 1 MAX_RETRY_COUNT st).2).1,
       (retryFiles env rest (retryLoop env t 1 MAX_RETRY_COUNT st).2).2) := by
  cases hrl : retryLoop env t 1 MAX_RETRY_COUNT st with
  | mk ok st' =>
    cases hrf : retryFiles env rest st' with
    | mk s st'' => simp [retryFiles, hrl, hrf]

/-- The whole retry pass leaves the shared progress counter unchanged. -/
theorem retryFiles_progress (env : Env) (l : List ConversionTask) (st : RunState) :
    (retryFiles env l st).2.progress = st.progress := by
  induction l generalizing st with
  | nil => rfl
  | cons t rest ih =>
    rw [retryFiles_cons]
    dsimp only
    rw [ih]
    exact retryLoop_progress env t 1 MAX_RETRY_COUNT st

/-- At most one retry success per failed task. -/
theorem retryFiles_success_le (env : Env) (l : List ConversionTask) (st : RunState) :
    (retryFiles env l st).1 ≤ l.length := by
  induction l generalizing st with
  | nil => simp [retryFiles]
  | cons t rest ih =>
    rw [retryFiles_cons]
    dsimp only
    have h := ih ((retryLoop env t 1 MAX_RETRY_COUNT st).2)
    by_cases hok : (retryLoop env t 1 MAX_RETRY_COUNT st).1 = true
    · simp only [hok, if_true, List.length_cons]
      omega
    · simp only [Bool.not_eq_true] at hok
      simp only [hok, Bool.false_eq_true, if_false, List.length_cons]
      omega

/-- Every log entry appended during the retry pass is a marked final-failure
entry for one of the retried tasks. -/
theorem retryFiles_log_general (env : Env) (l : List ConversionTask) (st : RunState) :
    ∃ es, (retryFiles env l st).2.log = st.log ++ es ∧
      ∀ fe ∈ es, hasFinalFailureMarker fe = true ∧ ∃ u ∈ l, fe.filePath = u.inputPath := by
  induction l generalizing st with
  | nil => exact ⟨[], by simp [retryFiles], by simp⟩
  | cons t rest ih =>
    rw [retryFiles_cons]
    dsimp only
    rcases retryLoop_log_general env t 1 MAX_RETRY_COUNT st with ⟨es1, h1, h2⟩
    rcases ih ((retryLoop env t 1 MAX_RETRY_COUNT st).2) with ⟨es2, h3, h4⟩
    refine ⟨es1 ++ es2, ?_, ?_⟩
    · rw [h3, h1, List.append_assoc]
    · intro fe hfe
      rcases List.mem_append.mp hfe with hfe | hfe
      · rcases h2 fe hfe with ⟨hp, hm⟩
        exact ⟨hm, t, List.mem_cons_self _ _, hp⟩
      · rcases h4 fe hfe with ⟨hm, u, hu, hp⟩
        exact ⟨hm, u, List.mem_cons_of_mem _ hu, hp⟩

/-- When exactly one of the retried tasks has input path `p` and the encoder
always fails for `p`, the retry pass appends exactly one log entry for `p`,
and it is a final-failure entry. -/
theorem retryFiles_p_filter (env : Env) (l : List ConversionTask) (st : RunState) (p : String)
    (hone : l.countP (fun t => t.inputPath == p) = 1)
    (hf : ∀ j, env.encoder p j ≠ .ok) :
    ∃ e : ConvError,
      (retryFiles env l st).2.log.filter (fun fe => fe.filePath == p) =
        st.log.filter (fun fe => fe.filePath == p) ++
          [mkErrorEntry p (finalFailureMessage e)] := by
  induction l generalizing st with
  | nil => simp [List.countP_nil] at hone
  | cons t rest ih =>
    rw [retryFiles_cons]
    dsimp only
    rw [List.countP_cons] at hone
    by_cases hp : (t.inputPath == p) = true
    · have hpe : t.inputPath = p := eq_of_beq hp
      have hrest0 : rest.countP (fun u => u.inputPath == p) = 0 := by
        simp only [hp, if_true] at hone
        omega
      have hft : ∀ j, env.encoder t.inputPath j ≠ .ok := by rw [hpe]; exact hf
      rcases retryLoop_fail env t hft 1 MAX_RETRY_COUNT st (by decide) with ⟨-, e, hlog⟩
      rcases retryFiles_log_general env rest ((retryLoop env t 1 MAX_RETRY_COUNT st).2) with
        ⟨es2, h3, h4⟩
      refine ⟨e, ?_⟩
      rw [h3, hlog, List.filter_append, List.filter_append]
      have hfilter1 : List.filter (fun fe => fe.filePath == p)
          [mkErrorEntry t.inputPath (finalFailureMessage e)] =
            [mkErrorEntry p (finalFailureMessage e)] := by
        subst hpe
        simp [List.filter, mkErrorEntry]
      have hfilter2 : List.filter (fun fe => fe.filePath == p) es2 = [] := by
        rw [List.filter_eq_nil_iff]
        intro fe hfe
        rcases h4 fe hfe with ⟨-, u, hu, hfp⟩
        have hu0 : ¬ (u.inputPath == p) = true := by
          intro hcontra
          have := List.countP_eq_zero.mp hrest0 u hu
          exact this hcontra
        simp only [hfp]
        exact hu0
      rw [hfilter1, hfilter2, List.append_nil]
    · have hp' : (t.inputPath == p) = false := by
        simpa [Bool.not_eq_true] using hp
      have hone' : rest.countP (fun u => u.inputPath == p) = 1 := by
        simp only [hp', Bool.false_eq_true, if_false] at hone
        omega
      rcases retryLoop_log_general env t 1 MAX_RETRY_COUNT st with ⟨es1, h1, h2⟩
      rcases ih ((retryLoop env t 1 MAX_RETRY_COUNT st).2) hone' with ⟨e, hfe⟩
      refine ⟨e, ?_⟩
      rw [hfe, h1, List.filter_append]
      have hfilter1 : List.filter (fun fe => fe.filePath == p) es1 = [] := by
        rw [List.filter_eq_nil_iff]
        intro fe hfe'
        rcases h2 fe hfe' with ⟨hfp, -⟩
        simp only [hfp]
        simp [hp']
      rw [hfilter1, List.append_nil]

/-- Any output added during the retry pass is the expected output of a
retried task whose encoder succeeded on some invocation. -/
theorem retryFiles_outputs_mem (env : Env) (l : List ConversionTask) (st : RunState)
    {pr : String × String} (h : pr ∈ (retryFiles env l st).2.fs.outputFiles) :
    pr ∈ st.fs.outputFiles ∨
      ∃ u ∈ l, pr = expectedPair u ∧ ∃ j, env.encoder u.inputPath j = .ok := by
  induction l generalizing st with
  | nil => exact Or.inl h
  | cons t rest ih =>
    rw [retryFiles_cons] at h
    dsimp only at h
    rcases ih _ h with h1 | ⟨u, hu, h2⟩
    · rcases retryLoop_outputs_mem env t 1 MAX_RETRY_COUNT st h1 with h3 | ⟨h3, h4⟩
      · exact Or.inl h3
      · exact Or.inr ⟨t, List.mem_cons_self _ _, h3, h4⟩
    · exact Or.inr ⟨u, List.mem_cons_of_mem _ hu, h2⟩

/-- Unfolding equation for `retryFailedFiles` with a non-empty error list. -/
theorem retryFailedFiles_eq (env : Env) (ft : FolderConversionTask) (st : RunState)
    (h : ft.errorFiles ≠ []) :
    retryFailedFiles env ft st =
      (⟨(retryFiles env ft.errorFiles st).1,
        ft.errorFiles.length - (retryFiles env ft.errorFiles st).1⟩,
       (retryFiles env ft.errorFiles st).2) := by
  cases hrf : retryFiles env ft.errorFiles st with
  | mk s st' =>
    have hlen : ¬ ft.errorFiles.length = 0 := by
      simpa [List.length_eq_zero] using h
    simp [retryFailedFiles, hlen, hrf]

/-- The retry entry point never touches the shared progress counter. -/
theorem retryFailedFiles_progress (env : Env) (ft : FolderConversionTask) (st : RunState) :
    (retryFailedFiles env ft st).2.progress = st.progress := by
  by_cases h : ft.errorFiles = []
  · simp [retryFailedFiles, h]
  · rw [retryFailedFiles_eq env ft st h]
    exact retryFiles_progress env ft.errorFiles st

/-- Each successful retry moves one unit from the error tally to the success
tally: the two returned counters always partition the retried list. -/
theorem retryFailedFiles_sum (env : Env) (ft : FolderConversionTask) (st : RunState) :
    (retryFailedFiles env ft st).1.successCount + (retryFailedFiles env ft st).1.errorCount =
      ft.errorFiles.length := by
  by_cases h : ft.errorFiles = []
  · simp [retryFailedFiles, h]
  · rw [retryFailedFiles_eq env ft st h]
    dsimp only
    have := retryFiles_success_le env ft.errorFiles st
    omega

/-! ### Folder-level lemmas -/

/-- Progress gained by one folder's first pass is exactly its file count. -/
theorem processFilesInFolder_progress (env : Env) (ft : FolderConversionTask) (st : RunState) :
    (processFilesInFolder env ft st).2.2.progress = st.progress + ft.files.length := by
  simp only [processFilesInFolder]
  rw [processFiles_progress, reindexFrom_length, sortFiles_length]

/-- The three counters of one folder's first pass partition its file list. -/
theorem processFilesInFolder_sum (env : Env) (ft : FolderConversionTask) (st : RunState) :
    (processFilesInFolder env ft st).1.successCount +
      (processFilesInFolder env ft st).1.errorCount +
      (processFilesInFolder env ft st).1.skippedCount = ft.files.length := by
  simp only [processFilesInFolder]
  have h := processFiles_sum env (reindexFrom 0 (sortFiles env ft.files)) st
  rw [reindexFrom_length, sortFiles_length] at h
  exact h

/-- The first pass appends its failed tasks to the folder's `errorFiles`. -/
theorem processFilesInFolder_errorFiles (env : Env) (ft : FolderConversionTask) (st : RunState) :
    (processFilesInFolder env ft st).2.1.errorFiles =
      ft.errorFiles ++ (processFiles env (reindexFrom 0 (sortFiles env ft.files)) st).errs := rfl

/-- The appended error tasks are exactly as many as the counted errors. -/
theorem processFilesInFolder_errorFiles_length (env : Env) (ft : FolderConversionTask)
    (st : RunState) (h : ft.errorFiles = []) :
    (processFilesInFolder env ft st).2.1.errorFiles.length =
      (processFilesInFolder env ft st).1.errorCount := by
  rw [processFilesInFolder_errorFiles, h, List.nil_append, processFiles_errs_length]
  rfl

/-- One folder's complete processing (first pass plus retry) leaves the
progress counter exactly `files.length` higher. -/
theorem processSingleFolder_progress (env : Env) (ft : FolderConversionTask) (st : RunState) :
    (processSingleFolder env ft st).2.2.progress = st.progress + ft.files.length := by
  cases h1 : processFilesInFolder env ft st with
  | mk r p =>
    cases p with
    | mk ft' st' =>
      have hp : st'.progress = st.progress + ft.files.length := by
        have hh := processFilesInFolder_progress env ft st
        rw [h1] at hh
        exact hh
      simp only [processSingleFolder, h1]
      split
      · dsimp only
        rw [retryFailedFiles_progress]
        exact hp
      · exact hp

/-- After retries are folded in, one folder's counters still partition its
file list (each successful retry adds one success and removes one error). -/
theorem processSingleFolder_sum (env : Env) (ft : FolderConversionTask) (st : RunState)
    (h : ft.errorFiles = []) :
    (processSingleFolder env ft st).1.successCount +
      (processSingleFolder env ft st).1.errorCount +
      (processSingleFolder env ft st).1.skippedCount = ft.files.length := by
  cases h1 : processFilesInFolder env ft st with
  | mk r p =>
    cases p with
    | mk ft' st' =>
      have hsum : r.successCount + r.errorCount + r.skippedCount = ft.files.length := by
        have hh := processFilesInFolder_sum env ft st
        rw [h1] at hh
        exact hh
      have herr : ft'.errorFiles.length = r.errorCount := by
        have hh := processFilesInFolder_errorFiles_length env ft st h
        rw [h1] at hh
        exact hh
      simp only [processSingleFolder, h1]
      split
      · have hsum2 := retryFailedFiles_sum env ft' st'
        rw [herr] at hsum2
        dsimp only
        omega
      · exact hsum

/-- Unfolding equation for `runFolders` on a non-empty queue. -/
theorem runFolders_cons (env : Env) (ft : FolderConversionTask)
    (rest : List FolderConversionTask) (st : RunState) :
    runFolders env (ft :: rest) st =
      (⟨(processSingleFolder env ft st).1.successCount +
          (runFolders env rest (processSingleFolder env ft st).2.2).1.successCount,
        (processSingleFolder env ft st).1.errorCount +
          (runFolders env rest (processSingleFolder env ft st).2.2).1.errorCount,
        (processSingleFolder env ft st).1.skippedCount +
          (runFolders env rest (processSingleFolder env ft st).2.2).1.skippedCount⟩,
       (runFolders env rest (processSingleFolder env ft st).2.2).2) := by
  cases h1 : processSingleFolder env ft st with
  | mk r p =>
    cases p with
    | mk ft' st' =>
      cases h2 : runFolders env rest st' with
      | mk tot st'' => simp [runFolders, h1, h2]

/-- Draining a folder queue advances the progress counter by exactly the
total number of files in the queue. -/
theorem runFolders_progress (env : Env) (fts : List FolderConversionTask) (st : RunState) :
    (runFolders env fts st).2.progress =
      st.progress + (fts.map (fun ft => ft.files.length)).sum := by
  induction fts generalizing st with
  | nil => simp [runFolders]
  | cons ft rest ih =>
    rw [runFolders_cons]
    dsimp only
    rw [ih, processSingleFolder_progress]
    simp only [List.map_cons, List.sum_cons]
    omega

/-- The aggregated counters over a folder queue partition the queue's files. -/
theorem runFolders_sum (env : Env) (fts : List FolderConversionTask) (st : RunState)
    (h : ∀ ft ∈ fts, ft.errorFiles = []) :
    (runFolders env fts st).1.successCount + (runFolders env fts st).1.errorCount +
      (runFolders env fts st).1.skippedCount =
      (fts.map (fun ft => ft.files.length)).sum := by
  induction fts generalizing st with
  | nil => simp [runFolders]
  | cons ft rest ih =>
    rw [runFolders_cons]
    dsimp only
    have h1 := processSingleFolder_sum env ft st (h ft (List.mem_cons_self _ _))
    have h2 := ih (processSingleFolder env ft st).2.2 (fun u hu => h u (List.mem_cons_of_mem _ hu))
    simp only [List.map_cons, List.sum_cons]
    omega

/-! ### Grouping lemmas -/

theorem addToGroups_sum (gs : List (String × List ConversionTask)) (key : String)
    (t : ConversionTask) :
    ((addToGroups gs key t).map (fun g => g.2.length)).sum =
      (gs.map (fun g => g.2.length)).sum + 1 := by
  induction gs with
  | nil => simp [addToGroups]
  | cons g rest ih =>
    cases g with
    | mk k l =>
      simp only [addToGroups]
      by_cases hk : k = key
      · simp [hk]
        omega
      · simp only [if_neg hk, List.map_cons, List.sum_cons, ih]
        omega

theorem groupTasks_sum (tasks : List ConversionTask) :
    ((groupTasks tasks).map (fun g => g.2.length)).sum = tasks.length := by
  unfold groupTasks
  have hgen : ∀ (gs : List (String × List ConversionTask)),
      ((tasks.foldl (fun gs t => addToGroups gs (dirName t.inputPath) t) gs).map
        (fun g => g.2.length)).sum = (gs.map (fun g => g.2.length)).sum + tasks.length := by
    induction tasks with
    | nil => intro gs; simp
    | cons t rest ih =>
      intro gs
      simp only [List.foldl_cons]
      rw [ih (addToGroups gs (dirName t.inputPath) t), addToGroups_sum]
      simp only [List.length_cons]
      omega
  have := hgen []
  simpa using this

/-- Every folder task created by the grouper starts with `errorFiles = []`. -/
theorem mkFolderTasks_errorFiles (tasks : List ConversionTask) :
    ∀ ft ∈ mkFolderTasks tasks, ft.errorFiles = [] := by
  intro ft hft
  rcases List.mem_map.mp hft with ⟨g, -, hg⟩
  rw [← hg]

/-- The grouper partitions the task list: group sizes sum to the task
count. -/
theorem mkFolderTasks_files_sum (tasks : List ConversionTask) :
    ((mkFolderTasks tasks).map (fun ft => ft.files.length)).sum = tasks.length := by
  unfold mkFolderTasks
  rw [List.map_map]
  exact groupTasks_sum tasks

/-! ### Renamer lemmas -/

theorem string_append_ne (s t : String) (h : t.length ≠ 0) : s ++ t ≠ s := by
  intro hEq
  have hlen := congrArg String.length hEq
  rw [String.length_append] at hlen
  omega

/-- One rename step keeps the on-disk names duplicate-free, keeps their
number (when the processed name is on disk), and never removes a sibling. -/
theorem renameStep_preserved (st : RenameState) (d : String) (hnd : st.fsNames.Nodup) :
    (renameStep st d).fsNames.Nodup ∧
    (d ∈ st.fsNames → (renameStep st d).fsNames.length = st.fsNames.length) ∧
    (∀ x ∈ st.fsNames, x ≠ d → x ∈ (renameStep st d).fsNames) := by
  have hcore : ∀ nw : String, nw ∉ st.fsNames →
      ((st.fsNames.erase d) ++ [nw]).Nodup ∧
      (d ∈ st.fsNames → ((st.fsNames.erase d) ++ [nw]).length = st.fsNames.length) ∧
      (∀ x ∈ st.fsNames, x ≠ d → x ∈ (st.fsNames.erase d) ++ [nw]) := by
    intro nw hnw
    refine ⟨?_, ?_, ?_⟩
    · rw [List.nodup_append]
      refine ⟨hnd.erase d, List.nodup_singleton nw, ?_⟩
      intro x hx hx1
      have hx2 : x = nw := by simpa using hx1
      subst hx2
      exact hnw (List.mem_of_mem_erase hx)
    · intro hd
      rw [List.length_append, List.length_erase_of_mem hd, List.length_singleton]
      have : 1 ≤ st.fsNames.length := List.length_pos.mpr (by intro hnil; rw [hnil] at hd; cases hd)
      omega
    · intro x hx hxd
      exact List.mem_append_left _ ((List.mem_erase_of_ne hxd).mpr hx)
  unfold renameStep
  by_cases heq : d = sanitizePath d
  · rw [if_pos heq]
    exact ⟨hnd, fun _ => rfl, fun x hx _ => hx⟩
  · rw [if_neg heq]
    dsimp only
    split
    · next hmem =>
      split
      · next halt => exact ⟨hnd, fun _ => rfl, fun x hx _ => hx⟩
      · next halt => exact hcore _ halt
    · next hmem => exact hcore _ hmem

/-- The full rename pass over one parent never merges two sibling
directories (names stay duplicate-free) and never loses one (the count is
preserved). -/
theorem renamePass_no_merge (names : List String) (hnd : names.Nodup) :
    (renameSpecialCharFolders names).fsNames.Nodup ∧
    (renameSpecialCharFolders names).fsNames.length = names.length := by
  suffices hgen : ∀ (rem : List String) (st : RenameState),
      st.fsNames.Nodup → rem.Nodup → (∀ x ∈ rem, x ∈ st.fsNames) →
      (rem.foldl renameStep st).fsNames.Nodup ∧
      (rem.foldl renameStep st).fsNames.length = st.fsNames.length by
    exact hgen names ⟨names, [], [], 0⟩ hnd hnd (fun x hx => hx)
  intro rem
  induction rem with
  | nil => intro st h1 _ _; exact ⟨h1, rfl⟩
  | cons d rest ih =>
    intro st h1 h2 h3
    simp only [List.foldl_cons]
    rcases renameStep_preserved st d h1 with ⟨p1, p2, p3⟩
    have hd : d ∈ st.fsNames := h3 d (List.mem_cons_self _ _)
    have hrest : ∀ x ∈ rest, x ∈ (renameStep st d).fsNames := by
      intro x hx
      have hxne : x ≠ d := by
        intro hx2
        subst hx2
        exact (List.nodup_cons.mp h2).1 hx
      exact p3 x (h3 x (List.mem_cons_of_mem _ hx)) hxne
    have hrec := ih (renameStep st d) p1 (List.nodup_cons.mp h2).2 hrest
    exact ⟨hrec.1, by rw [hrec.2, p2 hd]⟩

/-! ### All-whitespace input lemmas -/

theorem collapseWS_true_allWS {l : List Char} (h : ∀ c ∈ l, isWS c = true) :
    collapseWS true l = [] := by
  induction l with
  | nil => rfl
  | cons c rest ih =>
    simp only [collapseWS, h c (List.mem_cons_self _ _), if_true]
    exact ih (fun d hd => h d (List.mem_cons_of_mem _ hd))

/-- A non-empty all-whitespace list collapses to one space. -/
theorem collapseWS_false_allWS {c : Char} {rest : List Char}
    (h : ∀ d ∈ c :: rest, isWS d = true) :
    collapseWS false (c :: rest) = [' '] := by
  simp only [collapseWS, h c (List.mem_cons_self _ _), if_true, Bool.false_eq_true, if_false]
  rw [collapseWS_true_allWS (fun d hd => h d (List.mem_cons_of_mem _ hd))]

/-- Sanitizing a string of only forbidden and whitespace characters yields
the empty string. -/
theorem sanitizeList_allBad {l : List Char}
    (h : ∀ c ∈ l, isForbidden c = true ∨ isWS c = true) :
    sanitizeList l = [] := by
  have hws : ∀ c ∈ replaceForbidden l, isWS c = true := by
    intro c hc
    simp only [replaceForbidden, List.mem_map] at hc
    rcases hc with ⟨d, hd, hdc⟩
    by_cases hf : isForbidden d = true
    · rw [hf, if_pos rfl] at hdc
      rw [← hdc]
      exact isWS_space
    · simp only [Bool.not_eq_true] at hf
      rw [hf] at hdc
      simp only [Bool.false_eq_true, if_false] at hdc
      rcases h d hd with hbad | hbad
      · rw [hf] at hbad; cases hbad
      · rw [← hdc]; exact hbad
  unfold sanitizeList
  cases hrep : replaceForbidden l with
  | nil => rfl
  | cons c rest =>
    rw [collapseWS_false_allWS (by rw [← hrep]; exact hws)]
    simp [trimWS, List.dropWhile, isWS_space, trimRight]

/-! ## Claim theorems -/

/-- C1: for every input task list processed by a run, the number of files
found at discovery equals `successCount + skippedCount + errorCount` in the
result returned by the folder-based processor; the per-folder retry
accounting (`successCount += r`, `errorCount -= r` for `r` successful
retries) keeps the sum invariant, so `errorCount` counts only files that
still fail after their retries are exhausted. -/
theorem claim1_counts_partition_run (env : Env) (tasks : List ConversionTask) :
    (processFilesByFolder env tasks initialRunState).1.successCount +
      (processFilesByFolder env tasks initialRunState).1.skippedCount +
      (processFilesByFolder env tasks initialRunState).1.errorCount = tasks.length := by
  unfold processFilesByFolder
  have h := runFolders_sum env (mkFolderTasks tasks) initialRunState (mkFolderTasks_errorFiles tasks)
  rw [mkFolderTasks_files_sum] at h
  omega

/-- C2: the shared `ProgressInfo.current` counter is incremented exactly once
per task terminal outcome: the first pass adds exactly one per file whatever
the outcome, the retry loop adds nothing, and — since the run starts at 0 and
each folder adds exactly its file count — after processing any prefix of the
folder queue the counter is at most `total = tasks.length`, and at the end it
equals `total`. -/
theorem claim2_progress_exactly_once (env : Env) (tasks : List ConversionTask) :
    (processFilesByFolder env tasks initialRunState).2.progress = tasks.length ∧
    (∀ l st, (processFiles env l st).st.progress = st.progress + l.length) ∧
    (∀ ft st, (retryFailedFiles env ft st).2.progress = st.progress) ∧
    (∀ pre suf, mkFolderTasks tasks = pre ++ suf →
      (runFolders env pre initialRunState).2.progress ≤ tasks.length) := by
  refine ⟨?_, processFiles_progress env, fun ft st => retryFailedFiles_progress env ft st, ?_⟩
  · unfold processFilesByFolder
    rw [runFolders_progress, mkFolderTasks_files_sum]
    have h0 : initialRunState.progress = 0 := rfl
    omega
  · intro pre suf hsplit
    rw [runFolders_progress]
    have hsum : ((pre ++ suf).map (fun ft => ft.files.length)).sum = tasks.length := by
      rw [← hsplit, mkFolderTasks_files_sum]
    rw [List.map_append, List.sum_append] at hsum
    have h0 : initialRunState.progress = 0 := rfl
    omega

/-- Witness for C2 at a concrete two-file run. -/
theorem claim2_progress_exactly_once_witness :
    (mkFolderTasks [sampleTask, sampleTask2] =
      mkFolderTasks [sampleTask, sampleTask2] ++ ([] : List FolderConversionTask)) ∧
    (runFolders allOkEnv (mkFolderTasks [sampleTask, sampleTask2]) initialRunState).2.progress ≤
      ([sampleTask, sampleTask2] : List ConversionTask).length :=
  ⟨by simp,
   (claim2_progress_exactly_once allOkEnv [sampleTask, sampleTask2]).2.2.2
     (mkFolderTasks [sampleTask, sampleTask2]) [] (by simp)⟩

/-- C3: `convertFile` succeeds exactly when the staged encoder invocation
fully succeeds; the final sequential name is placed in the output directory
only in that case (the move is the last step, after the staged output was
verified); when the encoder reports success but produced no staged output the
call fails with the distinct `missingOutput` error; and on every failure path
the task's output directory gains no file. -/
theorem claim3_staged_move_last (env : Env) (t : ConversionTask) (k : Nat) (fs : FsState) :
    ((convertFile env t k fs).1 = Except.ok () ↔ env.encoder t.inputPath k = .ok) ∧
    (env.encoder t.inputPath k ≠ .ok →
      (convertFile env t k fs).2.outputFiles = fs.outputFiles) ∧
    (env.encoder t.inputPath k = .noOutput →
      (convertFile env t k fs).1 = Except.error ConvError.missingOutput ∧
      ConvError.missingOutput ≠ ConvError.subprocessFailed) ∧
    (env.encoder t.inputPath k = .ok →
      (convertFile env t k fs).2.outputFiles =
        (if (t.outputPath, targetFileName t) ∈ fs.outputFiles then fs.outputFiles
         else fs.outputFiles ++ [(t.outputPath, targetFileName t)])) :=
  ⟨convertFile_isOk env t k fs,
   convertFile_error_outputs env t k fs,
   fun h => ⟨convertFile_noOutput_err env t k fs h, by decide⟩,
   convertFile_ok_outputs env t k fs⟩

/-- Witness for C3: a concrete encoder that reports success without output
yields the distinct error and leaves the output directory empty. -/
theorem claim3_staged_move_last_witness :
    noOutputEnv.encoder sampleTask.inputPath 0 ≠ AttemptOutcome.ok ∧
    (convertFile noOutputEnv sampleTask 0 ⟨[], []⟩).2.outputFiles = [] ∧
    (convertFile noOutputEnv sampleTask 0 ⟨[], []⟩).1 =
      Except.error ConvError.missingOutput :=
  ⟨by decide,
   (claim3_staged_move_last noOutputEnv sampleTask 0 ⟨[], []⟩).2.1 (by decide),
   ((claim3_staged_move_last noOutputEnv sampleTask 0 ⟨[], []⟩).2.2.1 (by decide)).1⟩

/-- C4: `sanitizePath` is a pure total function, idempotent on every string;
its output contains no forbidden character, all whitespace runs are collapsed
(no two adjacent whitespace characters remain, and every remaining whitespace
character is a single space), and the result is trimmed at both ends. -/
theorem claim4_sanitize_idempotent (s : String) :
    sanitizePath (sanitizePath s) = sanitizePath s ∧
    (∀ c ∈ (sanitizePath s).data, isForbidden c = false) ∧
    (∀ c ∈ (sanitizePath s).data, isWS c = true → c = ' ') ∧
    noAdjWS (sanitizePath s).data = true ∧
    headOk (sanitizePath s).data = true ∧
    lastOk (sanitizePath s).data = true := by
  have hgood := sanitizeList_good s.data
  rcases hgood with ⟨hg, hn, hh, hl⟩
  have hdata : (sanitizePath s).data = sanitizeList s.data := rfl
  refine ⟨?_, ?_, ?_, ?_, ?_, ?_⟩
  · show String.mk (sanitizeList (sanitizeList s.data)) = String.mk (sanitizeList s.data)
    rw [sanitizeList_idem]
  · intro c hc
    rw [hdata] at hc
    rw [allGoodChars, List.all_eq_true] at hg
    rcases Bool.and_eq_true _ _ |>.mp (hg c hc) with ⟨h1, -⟩
    simpa [Bool.not_eq_true'] using h1
  · intro c hc hws
    rw [hdata] at hc
    rw [allGoodChars, List.all_eq_true] at hg
    rcases Bool.and_eq_true _ _ |>.mp (hg c hc) with ⟨-, h2⟩
    rcases Bool.or_eq_true _ _ |>.mp h2 with h | h
    · rw [Bool.not_eq_true'] at h; rw [h] at hws; cases hws
    · exact eq_of_beq h
  · rw [hdata]; exact hn
  · rw [hdata]; exact hh
  · rw [hdata]; exact hl

/-- C5 counterexample: with an encoder that always fails, after the retry
budget is exhausted the file appears in the error log twice — once from the
first pass and once (marked) from the retry loop — not exactly once as the
claim states. -/
theorem claim5_counterexample :
    ((processSingleFolder alwaysFailEnv sampleFolder initialRunState).2.2.log.countP
        (fun fe => fe.filePath == "src/a/1.png")) = 2 ∧
    ¬ ((processSingleFolder alwaysFailEnv sampleFolder initialRunState).2.2.log.countP
        (fun fe => fe.filePath == "src/a/1.png")) = 1 := by
  constructor
  · rfl
  · decide

/-- C5 (amended): for a file `p` that fails on the first pass and on every
retry attempt, after the retry budget is exhausted the error log holds
exactly one entry for `p` bearing the final-failure marker — plus exactly one
marker-less entry written when `p` first failed during the main pass, for two
entries in total — and no output file attributable to `p` exists in the
target directory. -/
theorem claim5_final_failure_amended (env : Env) (ft : FolderConversionTask) (st : RunState)
    (p : String)
    (h0 : ft.errorFiles = [])
    (hf : ∀ j, env.encoder p j ≠ .ok)
    (h1 : (processFilesInFolder env ft st).2.1.errorFiles.countP
            (fun t => t.inputPath == p) = 1)
    (h2 : st.log.countP (fun fe => fe.filePath == p) = 0) :
    ((processSingleFolder env ft st).2.2.log.filter
        (fun fe => fe.filePath == p)).countP hasFinalFailureMarker = 1 ∧
    ((processSingleFolder env ft st).2.2.log.filter
        (fun fe => fe.filePath == p)).length = 2 ∧
    (∀ pr : String × String, pr ∉ st.fs.outputFiles →
      (∀ u ∈ (processFilesInFolder env ft st).2.1.files,
        pr = expectedPair u → u.inputPath = p) →
      (∀ u ∈ (processFilesInFolder env ft st).2.1.errorFiles,
        pr = expectedPair u → u.inputPath = p) →
      pr ∉ (processSingleFolder env ft st).2.2.fs.outputFiles) := by
  have hft'errs : (processFilesInFolder env ft st).2.1.errorFiles =
      (processFiles env (reindexFrom 0 (sortFiles env ft.files)) st).errs := by
    rw [processFilesInFolder_errorFiles, h0, List.nil_append]
  have hst1 : (processFilesInFolder env ft st).2.2 =
      (processFiles env (reindexFrom 0 (sortFiles env ft.files)) st).st := rfl
  have hpos : 0 < (processFilesInFolder env ft st).1.errorCount := by
    have herrc : (processFilesInFolder env ft st).1.errorCount =
        (processFiles env (reindexFrom 0 (sortFiles env ft.files)) st).errs.length := by
      rw [processFiles_errs_length]
      rfl
    have hle := List.countP_le_length (fun t : ConversionTask => t.inputPath == p)
      (l := (processFiles env (reindexFrom 0 (sortFiles env ft.files)) st).errs)
    rw [hft'errs] at h1
    rw [herrc]
    omega
  have hne : (processFilesInFolder env ft st).2.1.errorFiles ≠ [] := by
    intro hnil
    rw [hnil] at h1
    simp [List.countP_nil] at h1
  have hstate : (processSingleFolder env ft st).2.2 =
      (retryFiles env (processFilesInFolder env ft st).2.1.errorFiles
        (processFilesInFolder env ft st).2.2).2 := by
    cases hF : processFilesInFolder env ft st with
    | mk r q =>
      cases q with
      | mk ft' st1 =>
        rw [hF] at hpos hne
        simp only [processSingleFolder, hF]
        split
        · next hgt =>
          dsimp only
          rw [retryFailedFiles_eq env ft' st1 hne]
        · next hng => exact absurd hpos hng
  -- decompose the first-pass log
  rcases processFiles_log env (reindexFrom 0 (sortFiles env ft.files)) st with ⟨es1, hl1, hl2, hl3⟩
  -- the retry pass appends exactly one marked entry for p
  rcases retryFiles_p_filter env (processFilesInFolder env ft st).2.1.errorFiles
      (processFilesInFolder env ft st).2.2 p h1 hf with ⟨e, hretry⟩
  rw [← hstate] at hretry
  -- the filtered first-pass log for p
  have hstlog : st.log.filter (fun fe => fe.filePath == p) = [] := by
    rw [← List.length_eq_zero, ← List.countP_eq_length_filter]
    exact h2
  have hes1count : es1.countP (fun fe => fe.filePath == p) = 1 := by
    have hmap : List.countP (fun x => x == p) (es1.map FileError.filePath) =
        List.countP (fun x => x == p)
          ((processFiles env (reindexFrom 0 (sortFiles env ft.files)) st).errs.map
            ConversionTask.inputPath) := by
      rw [hl2]
    rw [List.countP_map, List.countP_map] at hmap
    rw [hft'errs] at h1
    calc es1.countP (fun fe => fe.filePath == p)
        = List.countP ((fun x => x == p) ∘ FileError.filePath) es1 := rfl
      _ = List.countP ((fun x => x == p) ∘ ConversionTask.inputPath)
            (processFiles env (reindexFrom 0 (sortFiles env ft.files)) st).errs := hmap
      _ = 1 := h1
  have hfilterst1 : (processFilesInFolder env ft st).2.2.log.filter
      (fun fe => fe.filePath == p) = es1.filter (fun fe => fe.filePath == p) := by
    rw [hst1, hl1, List.filter_append, hstlog, List.nil_append]
  have hes1len : (es1.filter (fun fe => fe.filePath == p)).length = 1 := by
    rw [← List.countP_eq_length_filter]
    exact hes1count
  refine ⟨?_, ?_, ?_⟩
  · rw [hretry, hfilterst1, List.countP_append]
    have hmark0 : (es1.filter (fun fe => fe.filePath == p)).countP hasFinalFailureMarker = 0 := by
      rw [List.countP_eq_zero]
      intro fe hfe
      have := hl3 fe (List.mem_of_mem_filter hfe)
      simp [this]
    rw [hmark0]
    simp [marker_final]
  · rw [hretry, hfilterst1, List.length_append, hes1len]
    rfl
  · intro pr hpr hfiles herrs hcontra
    rw [hstate] at hcontra
    rcases retryFiles_outputs_mem env _ _ hcontra with hmem | ⟨u, hu, hpe, j, hok⟩
    · rw [hst1] at hmem
      rcases processFiles_outputs_mem env _ st hmem with hmem2 | ⟨u, hu, hpe, hok⟩
      · exact hpr hmem2
      · have hup : u.inputPath = p := hfiles u hu hpe
        rw [hup] at hok
        exact hf 0 hok
    · have hup : u.inputPath = p := herrs u hu hpe
      rw [hup] at hok
      exact hf j hok

/-- Witness for the amended C5 at a concrete always-failing run. -/
theorem claim5_final_failure_amended_witness :
    (sampleFolder.errorFiles = []) ∧
    ((processFilesInFolder alwaysFailEnv sampleFolder initialRunState).2.1.errorFiles.countP
        (fun t => t.inputPath == "src/a/1.png") = 1) ∧
    (((processSingleFolder alwaysFailEnv sampleFolder initialRunState).2.2.log.filter
        (fun fe => fe.filePath == "src/a/1.png")).countP hasFinalFailureMarker = 1) ∧
    (((processSingleFolder alwaysFailEnv sampleFolder initialRunState).2.2.log.filter
        (fun fe => fe.filePath == "src/a/1.png")).length = 2) :=
  ⟨rfl, by decide,
   (claim5_final_failure_amended alwaysFailEnv sampleFolder initialRunState "src/a/1.png"
      rfl (fun j h => AttemptOutcome.noConfusion h) (by decide) (by decide)).1,
   (claim5_final_failure_amended alwaysFailEnv sampleFolder initialRunState "src/a/1.png"
      rfl (fun j h => AttemptOutcome.noConfusion h) (by decide) (by decide)).2.1⟩

/-- C6 counterexample: a task whose first attempt fails and whose retry
succeeds is reported with `errorCount = 0` and `successCount = 1`, yet it is
still in `errorFiles` after the retry loop — `errorFiles` is never cleared,
so it does not contain exactly the tasks that remain failed. -/
theorem claim6_counterexample :
    (processSingleFolder failThenOkEnv sampleFolder initialRunState).1.errorCount = 0 ∧
    (processSingleFolder failThenOkEnv sampleFolder initialRunState).1.successCount = 1 ∧
    (processSingleFolder failThenOkEnv sampleFolder initialRunState).2.1.errorFiles ≠ [] := by
  refine ⟨rfl, rfl, ?_⟩
  decide

/-- C6 (amended): a task that fails during the first pass is appended to
`errorFiles`; the retry loop reads `errorFiles` but never removes anything
from it — a successful retry is reflected only in the returned counters
(`successCount + errorCount = errorFiles.length`), and after the whole
folder completes `errorFiles` still holds every first-pass failure. -/
theorem claim6_errorFiles_retained (env : Env) (ft : FolderConversionTask) (st : RunState) :
    (∃ errs, (processFilesInFolder env ft st).2.1.errorFiles = ft.errorFiles ++ errs ∧
      errs.length = (processFilesInFolder env ft st).1.errorCount) ∧
    (∀ ft' st', (retryFailedFiles env ft' st').1.successCount +
        (retryFailedFiles env ft' st').1.errorCount = ft'.errorFiles.length) ∧
    ((processSingleFolder env ft st).2.1.errorFiles =
      (processFilesInFolder env ft st).2.1.errorFiles) := by
  refine ⟨?_, fun ft' st' => retryFailedFiles_sum env ft' st', ?_⟩
  · refine ⟨(processFiles env (reindexFrom 0 (sortFiles env ft.files)) st).errs,
      processFilesInFolder_errorFiles env ft st, ?_⟩
    rw [processFiles_errs_length]
    rfl
  · cases hF : processFilesInFolder env ft st with
    | mk r q =>
      cases q with
      | mk ft' st1 =>
        simp only [processSingleFolder, hF]
        split
        · rfl
        · rfl

/-- C7: when every expected sequential output of a folder already exists and
the skip-existing flag (the constant `SKIP_EXISTING_FILES = true`) is
enabled, re-running the folder yields `skippedCount = files.length`,
`successCount = 0`, `errorCount = 0`, no task enters `errorFiles`, and the
whole run state is unchanged except the progress counter: no encoder
invocation, no write to the target tree, no log entry. -/
theorem claim7_skip_existing (env : Env) (ft : FolderConversionTask) (st : RunState)
    (h : ∀ t ∈ reindexFrom 0 (sortFiles env ft.files), expectedPair t ∈ st.fs.outputFiles) :
    processFilesInFolder env ft st =
      (⟨0, 0, ft.files.length⟩,
       { ft with files := reindexFrom 0 (sortFiles env ft.files) },
       { st with progress := st.progress + ft.files.length }) := by
  simp only [processFilesInFolder]
  rw [processFiles_allSkip env _ st h, reindexFrom_length, sortFiles_length]
  simp

/-- Witness for C7: one folder whose single expected output `001.avif`
already exists is re-run with all files skipped and the target tree
untouched. -/
theorem claim7_skip_existing_witness :
    (∀ t ∈ reindexFrom 0 (sortFiles allOkEnv sampleFolder.files),
      expectedPair t ∈ skipState.fs.outputFiles) ∧
    processFilesInFolder allOkEnv sampleFolder skipState =
      (⟨0, 0, 1⟩,
       { sampleFolder with files := reindexFrom 0 (sortFiles allOkEnv sampleFolder.files) },
       { skipState with progress := 1 }) :=
  ⟨by decide, claim7_skip_existing allOkEnv sampleFolder skipState (by decide)⟩

/-- C8: two distinct sibling directories whose names sanitize to the same
string are not renamed to the same destination: the first gets the sanitized
name, the second the numeric-suffixed alternative `s_1`; and in general the
rename pass keeps sibling directory names duplicate-free and preserves their
number, so no two distinct directories are silently merged into one. -/
theorem claim8_rename_collision (a b s : String)
    (hsa : sanitizePath a = s) (hsb : sanitizePath b = s)
    (hna : a ≠ s) (hnb : b ≠ s) (hab : a ≠ b)
    (hs1b : s ++ "_1" ≠ b) :
    (renameSpecialCharFolders [a, b]).renames = [(a, s), (b, s ++ "_1")] ∧
    (renameSpecialCharFolders [a, b]).fsNames = [s, s ++ "_1"] ∧
    s ++ "_1" ≠ s ∧
    (∀ names : List String, names.Nodup →
      (renameSpecialCharFolders names).fsNames.Nodup ∧
      (renameSpecialCharFolders names).fsNames.length = names.length) := by
  have hone : s ++ "_" ++ toString (0 + 1) = s ++ "_1" := by
    apply String.ext
    rw [String.data_append, String.data_append, String.data_append, List.append_assoc]
    have hlit : ("_" : String).data ++ (toString (0 + 1)).data = ("_1" : String).data := by decide
    rw [hlit]
  have hs1s : s ++ "_1" ≠ s := string_append_ne s "_1" (by decide)
  have hsa' : s ≠ a := fun hEq => hna hEq.symm
  have hsb' : s ≠ b := fun hEq => hnb hEq.symm
  have step1 : renameStep ⟨[a, b], [], [], 0⟩ a = ⟨[b, s], [(s.toLower, 0)], [(a, s)], 0⟩ := by
    unfold renameStep
    rw [hsa, if_neg hna]
    simp only [lookupKey]
    have hmem : s ∉ ([a, b] : List String) := by
      intro hm
      rcases List.mem_cons.mp hm with hm | hm
      · exact hsa' hm
      · rcases List.mem_cons.mp hm with hm | hm
        · exact hsb' hm
        · cases hm
    rw [if_neg hmem]
    simp [List.erase_cons_head, setKey]
  have step2 : renameStep ⟨[b, s], [(s.toLower, 0)], [(a, s)], 0⟩ b =
      ⟨[s, s ++ "_1"], [(s.toLower, 1)], [(a, s), (b, s ++ "_1")], 0⟩ := by
    unfold renameStep
    rw [hsb, if_neg hnb]
    simp only [lookupKey, if_true]
    rw [hone]
    have hmem : s ++ "_1" ∉ ([b, s] : List String) := by
      intro hm
      rcases List.mem_cons.mp hm with hm | hm
      · exact hs1b hm
      · rcases List.mem_cons.mp hm with hm | hm
        · exact hs1s hm
        · cases hm
    rw [if_neg hmem]
    simp [List.erase_cons_head, setKey]
  have hpass : renameSpecialCharFolders [a, b] =
      renameStep (renameStep ⟨[a, b], [], [], 0⟩ a) b := rfl
  refine ⟨?_, ?_, hs1s, fun names hnd => renamePass_no_merge names hnd⟩
  · rw [hpass, step1, step2]
  · rw [hpass, step1, step2]

/-- Witness for C8: the sibling directories `a(` and `a)` both sanitize to
`a`; the pass renames the first to `a` and the second to `a_1`. -/
theorem claim8_rename_collision_witness :
    sanitizePath "a(" = "a" ∧ sanitizePath "a)" = "a" ∧
    (renameSpecialCharFolders ["a(", "a)"]).renames = [("a(", "a"), ("a)", "a" ++ "_1")] ∧
    (renameSpecialCharFolders ["a(", "a)"]).fsNames = ["a", "a" ++ "_1"] :=
  ⟨by decide, by decide,
   (claim8_rename_collision "a(" "a)" "a" (by decide) (by decide) (by decide) (by decide)
      (by decide) (by decide)).1,
   (claim8_rename_collision "a(" "a)" "a" (by decide) (by decide) (by decide) (by decide)
      (by decide) (by decide)).2.1⟩

/-- C9: in every configuration the pool can reach, the number of folders
simultaneously mid-processing plus the scheduled-but-unrun calls never
exceeds `min W (number of folders)`; in particular the pool starts at most
`min W (number of folders)` workers and at no instant are more than `W`
folders simultaneously being processed. -/
theorem claim9_pool_bound (w : Nat) (folders : List String) (st : PoolState)
    (h : PoolReachable w folders st) :
    st.active + st.pending ≤ min w folders.length ∧ st.active ≤ w := by
  have key : st.active + st.pending ≤ min w folders.length := by
    induction h with
    | refl => simp [initPoolState]
    | tail hsteps hstep ih =>
      cases hstep with
      | takeFolder p a f q =>
        dsimp only at ih ⊢
        omega
      | emptyCall p a =>
        dsimp only at ih ⊢
        omega
      | finishFolder p a q =>
        dsimp only at ih ⊢
        omega
  refine ⟨key, ?_⟩
  have hmin : min w folders.length ≤ w := Nat.min_le_left _ _
  omega

/-- Witness for C9: with `W = 2` and five folders queued, the state reached
after two workers took a folder each has `active = 2 ≤ 2`. -/
theorem claim9_pool_bound_witness :
    PoolReachable 2 ["f1", "f2", "f3", "f4", "f5"] ⟨0, 2, ["f3", "f4", "f5"]⟩ ∧
    (⟨0, 2, ["f3", "f4", "f5"]⟩ : PoolState).active ≤ 2 := by
  have h1 : PoolStep (initPoolState 2 ["f1", "f2", "f3", "f4", "f5"])
      ⟨1, 1, ["f2", "f3", "f4", "f5"]⟩ := by
    have hinit : initPoolState 2 ["f1", "f2", "f3", "f4", "f5"] =
        ⟨2, 0, ["f1", "f2", "f3", "f4", "f5"]⟩ := rfl
    rw [hinit]
    exact PoolStep.takeFolder 1 0 "f1" ["f2", "f3", "f4", "f5"]
  have h2 : PoolStep (⟨1, 1, ["f2", "f3", "f4", "f5"]⟩ : PoolState)
      ⟨0, 2, ["f3", "f4", "f5"]⟩ :=
    PoolStep.takeFolder 0 1 "f2" ["f3", "f4", "f5"]
  have hreach : PoolReachable 2 ["f1", "f2", "f3", "f4", "f5"] ⟨0, 2, ["f3", "f4", "f5"]⟩ :=
    Relation.ReflTransGen.tail (Relation.ReflTransGen.tail Relation.ReflTransGen.refl h1) h2
  exact ⟨hreach, (claim9_pool_bound 2 ["f1", "f2", "f3", "f4", "f5"] _ hreach).2⟩

/-- C10: a non-empty path segment consisting only of forbidden characters
and whitespace sanitizes to the empty string, so during discovery it
contributes an empty segment to the sanitized relative path the output
directory is composed from. -/
theorem claim10_all_forbidden_empty (s : String) (parts : List String)
    (h0 : s.data ≠ [])
    (h1 : ∀ c ∈ s.data, isForbidden c = true ∨ isWS c = true)
    (h2 : s ∈ parts) :
    sanitizePath s = "" ∧ "" ∈ sanitizeParts parts := by
  have hempty : sanitizePath s = "" := by
    show String.mk (sanitizeList s.data) = ""
    rw [sanitizeList_allBad h1]
  exact ⟨hempty, by
    rw [← hempty]
    exact List.mem_map.mpr ⟨s, h2, rfl⟩⟩

/-- Witness for C10: the segment `"()"` sanitizes to `""` and contributes an
empty segment to the mapped parts. -/
theorem claim10_all_forbidden_empty_witness :
    sanitizePath "()" = "" ∧ "" ∈ sanitizeParts ["a", "()"] :=
  claim10_all_forbidden_empty "()" ["a", "()"] (by decide)
    (by decide) (by decide)
